import Mathlib

/-!
Shallow embedding of the rb-forest crate (an arena-backed forest of
red-black trees with order threading and optional cumulants), together
with proofs and refutations of the specified properties.

The embedding follows the Rust sources:
  * src/arena/mod.rs   — slot arena with intrusive free list
  * src/tree/node.rs   — node layout and the value (cumulant) contract
  * src/tree/mod.rs    — core tree algorithms (search, rotate, insert and
                         remove fix-ups, join)
  * src/tree/interface.rs — public guard operations (insert, remove, clear,
                         split, union_disjoint)

Machine integers: arena indices are `Nat` (the Rust `Index` is a plain
machine word), `black_height` is `Nat` (`u8` in the source; it never
reaches 255 on the inputs considered and the sole subtractions are
guarded, matching truncated subtraction).  Rust panics (`unwrap` on
unreachable branches) are modelled by fixed junk results; every such
branch is unreachable on the well-formed states the theorems quantify
over and on the concrete executions evaluated here.
-/

set_option linter.unusedVariables false
set_option linter.unusedSectionVars false

namespace RBForest

/-- Node color (src/tree/node.rs `Color`). -/
inductive Color where
  | red
  | black
deriving DecidableEq, Repr

/-- One arena slot (src/arena/mod.rs `Entry`): either occupied or a link
in the intrusive free list. -/
inductive Entry (T : Type) where
  | occupied (value : T)
  | free (next : Option Nat)
deriving DecidableEq, Repr

/-- Slot arena (src/arena/mod.rs `Arena`): slots, free-list head, and the
`len` counter.  Faithful to the source: `insert_within_capacity` does
`self.len += 1`, while `remove` never touches `len`. -/
structure Arena (T : Type) where
  items : List (Entry T)
  free : Option Nat
  len : Nat
deriving DecidableEq, Repr

namespace Arena

/-- Fresh arena (`Arena::new`). -/
def new : Arena T := ⟨[], none, 0⟩

/-- `Arena::get`: the payload of slot `i` when occupied. -/
def get (a : Arena T) (i : Nat) : Option T :=
  match a.items.get? i with
  | some (.occupied v) => some v
  | _ => none

/-- `Arena::contains`. -/
def contains (a : Arena T) (i : Nat) : Bool :=
  (a.get i).isSome

/-- `Arena::insert_within_capacity` as reached through
`PortAllocGuard::insert` (src/arena/port.rs), which calls `reserve`
first so that the vector push never fails: reuse the free-list head when
one exists, otherwise append at the end.  Returns the new arena and the
index of the inserted value.  When the free head names a slot that is
not `Free` the source would panic on `into_head().unwrap()`; that branch
is modelled by a junk `none` next pointer. -/
def insert (a : Arena T) (v : T) : Arena T × Nat :=
  match a.free with
  | some head =>
    let next : Option Nat :=
      match a.items.get? head with
      | some (.free n) => n
      | _ => none
    (⟨a.items.set head (.occupied v), next, a.len + 1⟩, head)
  | none => (⟨a.items ++ [.occupied v], none, a.len + 1⟩, a.items.length)

/-- `Arena::remove`: free an occupied slot, push it on the free list and
return its payload; out-of-bounds or already-free slots yield `none`.
Exactly as in the source, `len` is not changed. -/
def remove (a : Arena T) (i : Nat) : Arena T × Option T :=
  if a.items.length ≤ i then (a, none)
  else
    match a.items.get? i with
    | some (.occupied v) => (⟨a.items.set i (.free a.free), some i, a.len⟩, some v)
    | _ => (a, none)

/-- Replace the payload of slot `i` when it is occupied (the
`IndexMut`/`get_mut` access path of the guards); a miss would panic in
the source and leaves the arena unchanged here. -/
def modifyN (a : Arena T) (i : Nat) (f : T → T) : Arena T :=
  match a.items.get? i with
  | some (.occupied v) => { a with items := a.items.set i (.occupied (f v)) }
  | _ => a

/-- Number of occupied slots of the arena (the quantity the spec calls
the occupied count). -/
def occupiedCount (a : Arena T) : Nat :=
  a.items.countP fun e => match e with | .occupied _ => true | .free _ => false

end Arena

/-- A pair of optional node references, the `[Ref; 2]` arrays of the
source (children, order threads, range). -/
structure Pair2 where
  l : Option Nat
  r : Option Nat
deriving DecidableEq, Repr

namespace Pair2

/-- Index access `p[i]` for `i : {0, 1}`. -/
def get (p : Pair2) (i : Nat) : Option Nat :=
  if i = 0 then p.l else p.r

/-- Index update `p[i] = v` for `i : {0, 1}`. -/
def set (p : Pair2) (i : Nat) (v : Option Nat) : Pair2 :=
  if i = 0 then ⟨v, p.r⟩ else ⟨p.l, v⟩

/-- Both references empty, `[None, None]`. -/
def none2 : Pair2 := ⟨none, none⟩

end Pair2

/-- Tree node (src/tree/node.rs `Node`): key, value, color, parent link,
children `[left, right]` and order-thread neighbours
`[predecessor, successor]`. -/
structure Node (K V : Type) where
  key : K
  value : V
  color : Color
  parent : Option Nat
  children : Pair2
  order : Pair2
deriving DecidableEq, Repr

namespace Node

/-- `Node::new`. -/
def new (key : K) (value : V) (color : Color) : Node K V :=
  ⟨key, value, color, none, Pair2.none2, Pair2.none2⟩

/-- `Node::is_black`. -/
def isBlack (n : Node K V) : Bool :=
  match n.color with
  | .black => true
  | .red => false

/-- `Node::is_red`. -/
def isRed (n : Node K V) : Bool :=
  match n.color with
  | .black => false
  | .red => true

/-- `Node::clear`: reset all links and set the color. -/
def clear (n : Node K V) (c : Color) : Node K V :=
  { n with parent := none, order := Pair2.none2, children := Pair2.none2, color := c }

end Node

instance [Inhabited K] [Inhabited V] : Inhabited (Node K V) :=
  ⟨Node.new default default .red⟩

/-- The capability record of the `Value` trait (src/tree/node.rs):
`V` is the stored value, `C` its cumulant, `L` the local payload
(`Value::Local`, which also serves as `Value::Into` in both canonical
implementations). -/
structure ValueImpl (V C L : Type) where
  newV : L → V
  intoV : V → L
  cumulant : V → C
  updateCumulant : V → Option C → Option C → V
  hasCumulant : Bool

/-- The `NoCumulant<T>` implementation: unit cumulant, no-op update. -/
def noCumulant (L : Type) : ValueImpl L Unit L :=
  ⟨id, id, fun _ => (), fun v _ _ => v, false⟩

/-- The `WithSum` instantiation of the `with_cumulant!` macro
(src/test/cumulant.rs): value paired with an additive cumulant over the
subtree, missing children contributing the default `0`. -/
def sumValue : ValueImpl (Nat × Nat) Nat Nat :=
  ⟨fun v => (v, 0), Prod.fst, Prod.snd,
   fun v c1 c2 => (v.1, v.1 + c1.getD 0 + c2.getD 0), true⟩

/-- Per-tree metadata (src/tree/mod.rs `Bounds`): root, range
`[min, max]` and tracked black height. -/
structure Bounds where
  root : Option Nat
  range : Pair2
  blackHeight : Nat
deriving DecidableEq, Repr

instance : Inhabited Bounds := ⟨⟨none, Pair2.none2, 0⟩⟩

/-- `Bounds::default()`. -/
def Bounds.dflt : Bounds := ⟨none, Pair2.none2, 0⟩

/-- The state a tree operation works on: the shared arena plus this
tree's metadata (what a `TreeWriter` exposes in the source). -/
structure TreeData (K V : Type) where
  arena : Arena (Node K V)
  meta : Bounds
deriving DecidableEq, Repr

/-- `SearchResult` (src/tree/mod.rs). -/
inductive SearchResult (T : Type) where
  | empty
  | leftOf (t : T)
  | here (t : T)
  | rightOf (t : T)
deriving DecidableEq, Repr

namespace SearchResult

/-- `SearchResult::is_here`. -/
def isHere : SearchResult T → Bool
  | .here _ => true
  | _ => false

/-- `SearchResult::into_here`. -/
def intoHere : SearchResult T → Option T
  | .here v => some v
  | _ => none

end SearchResult

/-- `Ord::cmp` for a linear order. -/
def kcmp [LinearOrder K] (a b : K) : Ordering :=
  if a < b then .lt else if a = b then .eq else .gt

section TreeOps

variable {K V C L : Type} [LinearOrder K] [Inhabited K] [Inhabited V]

/-- Read the node in slot `i`; a vacant slot would panic in the source
(`Index` impl) and yields the junk `default` node here. -/
def TreeData.node (s : TreeData K V) (i : Nat) : Node K V :=
  (s.arena.get i).getD default

/-- Update the node in slot `i` (no-op on a vacant slot, which would
panic in the source). -/
def TreeData.modifyN (s : TreeData K V) (i : Nat) (f : Node K V → Node K V) :
    TreeData K V :=
  { s with arena := s.arena.modifyN i f }

/-- The descent loop of `Tree::search_by` (src/tree/mod.rs): standard BST
walk recording the last visited node and the direction the walk wanted
to take.  `fuel` bounds the loop; it exceeds the tree height on every
state considered.  On a miss with no visited parent the source is
unreachable (`unwrap_unchecked`); junk `.empty` models it. -/
def searchGo (f : Node K V → Ordering) (s : TreeData K V) :
    Nat → Option Nat → Option Nat → Bool → SearchResult Nat
  | 0, _, _, _ => .empty
  | _ + 1, none, parent, left =>
    match parent with
    | some p => if left then .leftOf p else .rightOf p
    | none => .empty
  | fuel + 1, some i, _, _ =>
    match f (s.node i) with
    | .gt => searchGo f s fuel ((s.node i).children.get 0) (some i) true
    | .eq => .here i
    | .lt => searchGo f s fuel ((s.node i).children.get 1) (some i) false

/-- `Tree::search_by`: bounded search.  First compares against the range
endpoints (returning without descending when the key falls outside),
then runs the BST descent from `ptr`. -/
def search_by (f : Node K V → Ordering) (ptr : Option Nat) (s : TreeData K V) :
    SearchResult Nat :=
  match s.meta.range.l, s.meta.range.r with
  | some mn, some mx =>
    (match f (s.node mn) with
     | .gt => .leftOf mn
     | .eq => .here mn
     | .lt =>
       match f (s.node mx) with
       | .lt => .rightOf mx
       | .eq => .here mx
       | .gt => searchGo f s (s.arena.items.length + 1) ptr none false)
  | _, _ => .empty

/-- `Tree::search`: search by key order. -/
def search (ptr : Option Nat) (key : K) (s : TreeData K V) : SearchResult Nat :=
  search_by (fun n => kcmp n.key key) ptr s

/-- `Tree::update_cumulant`: recompute slot `ptr`'s cumulant from its
local value and its children's cumulants (a vacant child slot counts as
a missing child, as in `get_mut_with`). -/
def update_cumulant (VI : ValueImpl V C L) (ptr : Nat) (s : TreeData K V) :
    TreeData K V :=
  let ch := (s.node ptr).children
  let lc := ch.get 0 |>.bind fun l => (s.arena.get l).map fun nd => VI.cumulant nd.value
  let rc := ch.get 1 |>.bind fun r => (s.arena.get r).map fun nd => VI.cumulant nd.value
  s.modifyN ptr fun n => { n with value := VI.updateCumulant n.value lc rc }

/-- Loop body of `Tree::propagate_cumulant`: walk the parent chain,
updating each cumulant.  `fuel` bounds the walk. -/
def propagateGo (VI : ValueImpl V C L) : Nat → Option Nat → TreeData K V → TreeData K V
  | 0, _, s => s
  | _ + 1, none, s => s
  | fuel + 1, some i, s =>
    propagateGo VI fuel ((s.node i).parent) (update_cumulant VI i s)

/-- `Tree::propagate_cumulant`. -/
def propagate_cumulant (VI : ValueImpl V C L) (ptr : Nat) (s : TreeData K V) :
    TreeData K V :=
  propagateGo VI (s.arena.items.length + 1) (some ptr) s

/-- `Tree::replace`: make `new` take `old`'s place under `old`'s parent
(or as root). -/
def replace (old : Nat) (new : Option Nat) (s : TreeData K V) : TreeData K V :=
  let parent := (s.node old).parent
  let s :=
    match new with
    | some n => s.modifyN n fun nd => { nd with parent := parent }
    | none => s
  match parent with
  | some p =>
    if (s.node p).children.get 0 = some old then
      s.modifyN p fun nd => { nd with children := nd.children.set 0 new }
    else
      s.modifyN p fun nd => { nd with children := nd.children.set 1 new }
  | none => { s with meta := { s.meta with root := new } }

/-- `Tree::rotate::<I>` at `ptr`: the child on side `1 - I` becomes the
new subtree root.  The caller guarantees that child exists; a missing
pivot (a panic in the source) leaves the state as after `replace`. -/
def rotate (I : Nat) (ptr : Nat) (s : TreeData K V) : TreeData K V :=
  let pivot := (s.node ptr).children.get (1 - I)
  let s := replace ptr pivot s
  match pivot with
  | none => s
  | some pv =>
    let child := (s.node pv).children.get I
    let s := s.modifyN pv fun nd => { nd with children := nd.children.set I (some ptr) }
    let s := s.modifyN ptr fun nd =>
      { nd with parent := pivot, children := nd.children.set (1 - I) child }
    match child with
    | some c => s.modifyN c fun nd => { nd with parent := some ptr }
    | none => s

/-- `helper::<I, J>` inside `Tree::fix_insert`: `I` names the uncle
side, `I = J` the inner-grandchild case.  Returns the new focus node and
state. -/
def fixInsertHelper (VI : ValueImpl V C L) (I J : Nat) (ptr parent grandparent : Nat)
    (s : TreeData K V) : Nat × TreeData K V :=
  let uncle := (s.node grandparent).children.get I
  if (match uncle with | some u => (s.node u).isRed | none => false) then
    let s := s.modifyN (uncle.getD 0) fun nd => { nd with color := .black }
    let s := s.modifyN parent fun nd => { nd with color := .black }
    let s := s.modifyN grandparent fun nd => { nd with color := .red }
    (grandparent, s)
  else
    let (ptr, s) :=
      if I = J then
        let s := rotate (1 - I) parent s
        let s := if VI.hasCumulant then update_cumulant VI parent s else s
        (parent, s)
      else (ptr, s)
    let parent2 := (s.node ptr).parent.getD 0
    let s := s.modifyN parent2 fun nd => { nd with color := .black }
    let grandparent2 := (s.node parent2).parent.getD 0
    let s := s.modifyN grandparent2 fun nd => { nd with color := .red }
    let s := rotate I grandparent2 s
    let s := if VI.hasCumulant then update_cumulant VI grandparent2 s else s
    (ptr, s)

/-- The loop of `Tree::fix_insert`: climb while the focus has a red
parent, dispatching to the four symmetric helper cases; stop at the root
or when the parent is black. -/
def fixInsertGo (VI : ValueImpl V C L) : Nat → Nat → TreeData K V → TreeData K V
  | 0, _, s => s
  | fuel + 1, ptr, s =>
    match (s.node ptr).parent with
    | none => s
    | some parent =>
      if (s.node parent).isBlack then s
      else
        let isLeft := (s.node parent).children.get 0 = some ptr
        let grandparent := (s.node parent).parent.getD 0
        let (ptr, s) :=
          if (s.node grandparent).children.get 1 = some parent then
            if isLeft then fixInsertHelper VI 0 0 ptr parent grandparent s
            else fixInsertHelper VI 0 1 ptr parent grandparent s
          else if isLeft then fixInsertHelper VI 1 0 ptr parent grandparent s
          else fixInsertHelper VI 1 1 ptr parent grandparent s
        if some ptr = s.meta.root then s else fixInsertGo VI fuel ptr s

/-- `Tree::fix_insert`: run the loop, then repaint a red root black and
bump the tracked black height. -/
def fix_insert (VI : ValueImpl V C L) (ptr : Nat) (s : TreeData K V) : TreeData K V :=
  let s := fixInsertGo VI (s.arena.items.length + 1) ptr s
  match s.meta.root with
  | some root =>
    if (s.node root).isRed then
      let s := s.modifyN root fun nd => { nd with color := .black }
      { s with meta := { s.meta with blackHeight := s.meta.blackHeight + 1 } }
    else s
  | none => s

/-- `Tree::insert_at::<I>`: link the (already allocated) node `ptr` as
child `I` of leaf position `parent`, thread it into the order list,
update the range end if needed, then run the insert fix-up and cumulant
propagation. -/
def insert_at (VI : ValueImpl V C L) (I : Nat) (ptr parent : Nat) (s : TreeData K V) :
    TreeData K V :=
  let ord := (Pair2.none2.set I ((s.node parent).order.get I)).set (1 - I) (some parent)
  let s := s.modifyN ptr fun nd => { nd with parent := some parent, order := ord }
  let s :=
    match ord.get I with
    | some far => s.modifyN far fun nd => { nd with order := nd.order.set (1 - I) (some ptr) }
    | none => { s with meta := { s.meta with range := s.meta.range.set I (some ptr) } }
  let s := s.modifyN parent fun nd =>
    { nd with children := nd.children.set I (some ptr), order := nd.order.set I (some ptr) }
  let s := if (s.node parent).parent.isSome then fix_insert VI ptr s else s
  if VI.hasCumulant then propagate_cumulant VI ptr s else s

/-- `TreeAllocGuard::insert` (src/tree/interface.rs): search for the
key; replace the value on a hit (reporting `false`), install a black
root in an empty tree, otherwise attach a new red node at the miss
position. -/
def insertG (VI : ValueImpl V C L) (key : K) (v : L) (s : TreeData K V) :
    TreeData K V × Bool :=
  let value := VI.newV v
  match search s.meta.root key s with
  | .here ptr =>
    ({ s with arena := s.arena.modifyN ptr fun nd => { nd with value := value } }, false)
  | .empty =>
    let (a, idx) := s.arena.insert (Node.new key value .black)
    ({ arena := a, meta := { root := some idx, range := ⟨some idx, some idx⟩, blackHeight := 1 } }, true)
  | .leftOf parent =>
    let (a, idx) := s.arena.insert (Node.new key value .red)
    (insert_at VI 0 idx parent { s with arena := a }, true)
  | .rightOf parent =>
    let (a, idx) := s.arena.insert (Node.new key value .red)
    (insert_at VI 1 idx parent { s with arena := a }, true)

/-- `helper::<I>` inside `Tree::fix_remove` (src/tree/mod.rs): one
double-black resolution step at `parent`, where `I` is the side the
removed node was on.  Returns the next double-black node (`none` when
done) and the new state. -/
def fixRemoveHelper (VI : ValueImpl V C L) (I : Nat) (parent : Nat) (s : TreeData K V) :
    Option Nat × TreeData K V :=
  let sibling := (s.node parent).children.get (1 - I) |>.getD 0
  let (sibling, s) :=
    if (s.node sibling).isRed then
      let s := s.modifyN sibling fun nd => { nd with color := .black }
      let nephew := (s.node sibling).children.get I
      let s := s.modifyN parent fun nd => { nd with color := .red }
      let s := rotate I parent s
      (nephew.getD 0, s)
    else (sibling, s)
  let nephews := (s.node sibling).children
  let closeRed := match nephews.get I with | some n => (s.node n).isRed | none => false
  let farRed := match nephews.get (1 - I) with | some n => (s.node n).isRed | none => false
  if farRed || closeRed then
    let (sibling, s) :=
      if closeRed then
        let close := (nephews.get I).getD 0
        let s := s.modifyN close fun nd => { nd with color := .black }
        let s := s.modifyN sibling fun nd => { nd with color := .red }
        let s := rotate (1 - I) sibling s
        let sibling := close
        let s :=
          if VI.hasCumulant then
            let s := update_cumulant VI sibling s
            match nephews.get I with
            | some n => update_cumulant VI n s
            | none => s
          else s
        (sibling, s)
      else (sibling, s)
    let pcol := (s.node parent).color
    let s := s.modifyN sibling fun nd => { nd with color := pcol }
    let s := s.modifyN parent fun nd => { nd with color := .black }
    let far := (s.node sibling).children.get (1 - I) |>.getD 0
    let s := s.modifyN far fun nd => { nd with color := .black }
    let s := rotate I parent s
    (none, s)
  else
    let s := s.modifyN sibling fun nd => { nd with color := .red }
    if (s.node parent).isRed then
      (none, s.modifyN parent fun nd => { nd with color := .black })
    else
      (some parent, s)

/-- The loop of `Tree::fix_remove`: resolve the double black, climbing
as long as the helper reports a new double-black node; decrement the
tracked black height when propagation reaches the root. -/
def fixRemoveGo (VI : ValueImpl V C L) : Nat → Nat → Bool → TreeData K V → TreeData K V
  | 0, _, _, s => s
  | fuel + 1, parent, isRight, s =>
    let (next, s) := if isRight then fixRemoveHelper VI 1 parent s else fixRemoveHelper VI 0 parent s
    match next with
    | some nxt =>
      match (s.node nxt).parent with
      | some par => fixRemoveGo VI fuel par ((s.node par).children.get 1 = some nxt) s
      | none => { s with meta := { s.meta with blackHeight := s.meta.blackHeight - 1 } }
    | none => s

/-- `Tree::fix_remove`: unlink the black non-root leaf `ptr` from its
parent and run the double-black fix-up loop. -/
def fix_remove (VI : ValueImpl V C L) (ptr : Nat) (s : TreeData K V) : TreeData K V :=
  let parent := (s.node ptr).parent.getD 0
  let isRight := (s.node parent).children.get 1 = some ptr
  let s := s.modifyN parent fun nd =>
    { nd with children := nd.children.set (if isRight then 1 else 0) none }
  fixRemoveGo VI (s.arena.items.length + 1) parent isRight s

/-- Tail of `Tree::remove_at`: splice the removed node out of the order
thread, repair the range ends, and propagate cumulants from the parent.
The root-removal case in the source has the black-height decrement
commented out; this is modelled faithfully by doing nothing there. -/
def removeFinish (VI : ValueImpl V C L) (ptr : Nat) (parent prev next : Option Nat)
    (s : TreeData K V) : Nat × TreeData K V :=
  let s :=
    match prev with
    | some pv => s.modifyN pv fun nd => { nd with order := nd.order.set 1 next }
    | none => { s with meta := { s.meta with range := s.meta.range.set 0 next } }
  let s :=
    match next with
    | some nx => s.modifyN nx fun nd => { nd with order := nd.order.set 0 prev }
    | none => { s with meta := { s.meta with range := s.meta.range.set 1 prev } }
  let s :=
    match parent with
    | some p => if VI.hasCumulant then propagate_cumulant VI p s else s
    | none => s
  (ptr, s)

/-- `Tree::remove_at`: unlink the node at `ptr` from the tree (swapping
with the in-order successor when it has two children) and return the
index of the physically removed slot together with the new state.  The
slot itself stays allocated; the caller frees it. -/
def remove_at (VI : ValueImpl V C L) (ptr : Nat) (s : TreeData K V) :
    Nat × TreeData K V :=
  let children := (s.node ptr).children
  let (ptr, s) :=
    match children.get 0, children.get 1 with
    | some _, some _ =>
      let next := (s.node ptr).order.get 1 |>.getD 0
      if ptr = next then (ptr, s)
      else
        let na := s.node ptr
        let nb := s.node next
        let s := s.modifyN ptr fun nd => { nd with key := nb.key, value := nb.value }
        let s := s.modifyN next fun nd => { nd with key := na.key, value := na.value }
        (next, s)
    | _, _ => (ptr, s)
  let children := (s.node ptr).children
  let nd := s.node ptr
  let parent := nd.parent
  let color := nd.color
  let prev := nd.order.get 0
  let next := nd.order.get 1
  match children.get 0, children.get 1 with
  | some l, none =>
    let s := replace ptr (some l) s
    let s := s.modifyN l fun n => { n with color := .black }
    removeFinish VI ptr parent prev next s
  | none, some r =>
    let s := replace ptr (some r) s
    let s := s.modifyN r fun n => { n with color := .black }
    removeFinish VI ptr parent prev next s
  | none, none =>
    (match parent with
     | some p =>
       let s :=
         if color = .red then
           if (s.node p).children.get 0 = some ptr then
             s.modifyN p fun n => { n with children := n.children.set 0 none }
           else
             s.modifyN p fun n => { n with children := n.children.set 1 none }
         else fix_remove VI ptr s
       removeFinish VI ptr parent prev next s
     | none => (ptr, { s with meta := Bounds.dflt }))
  | some _, some _ => (ptr, s)

/-- `TreeAllocGuard::remove`: search for the key; on a hit unlink the
node and free its slot, returning the payload; otherwise leave the tree
untouched and return `none`. -/
def removeG (VI : ValueImpl V C L) (key : K) (s : TreeData K V) :
    TreeData K V × Option L :=
  match search s.meta.root key s with
  | .here ptr =>
    let (r, s) := remove_at VI ptr s
    let (a, nodeOpt) := s.arena.remove r
    ({ s with arena := a }, nodeOpt.map fun nd => VI.intoV nd.value)
  | _ => (s, none)

/-- The deallocation loop of `TreeAllocGuard::clear`: walk the order
thread from the minimum, freeing each slot. -/
def clearGo : Nat → Option Nat → TreeData K V → TreeData K V
  | 0, _, s => s
  | _ + 1, none, s => s
  | fuel + 1, some i, s =>
    let nxt := (s.node i).order.get 1
    let (a, _) := s.arena.remove i
    clearGo fuel nxt { s with arena := a }

/-- `TreeAllocGuard::clear`: free every node, then reset `root` and
`range`.  Exactly as in the source, `black_height` is left unchanged. -/
def clearG (s : TreeData K V) : TreeData K V :=
  let s := clearGo (s.arena.items.length + 1) (s.meta.range.get 0) s
  { s with meta := { s.meta with root := none, range := Pair2.none2 } }

end TreeOps

/-- `Error` of the arena (src/arena/mod.rs). -/
inductive ArenaError where
  | indexAlias
  | notOccupied
deriving DecidableEq, Repr

/-- `Error` of the tree (src/tree/mod.rs). -/
inductive Error where
  | duplicateKey
  | keyAlias
  | arena (e : ArenaError)
  | overlapping
deriving DecidableEq, Repr

/-- Result of a tree-combining operation that consumes its operands:
either the combined tree's metadata, or the two original metadata
records handed back with the error, or the undefined behaviour of an
`unwrap_unchecked` taken on an error value. -/
inductive JoinRes where
  | ok (m : Bounds)
  | err (a b : Bounds) (e : Error)
  | ub
deriving DecidableEq, Repr

/-- `LenEstimate` (src/tree/interface.rs). -/
inductive LenEstimate where
  | empty
  | single
  | more (n : Nat)
deriving DecidableEq, Repr

/-- `len_estimate` of the read-only guard API. -/
def lenEstimate (m : Bounds) : LenEstimate :=
  match m.range.l, m.range.r with
  | none, none => .empty
  | some mn, some mx =>
    if mn = mx then .single
    else .more ((1 <<< ((m.blackHeight <<< 2) + 1)) - 1)
  | _, _ => .more ((1 <<< ((m.blackHeight <<< 2) + 1)) - 1)

/-- `is_single` of the read-only guard API. -/
def isSingle (m : Bounds) : Bool :=
  m.range.l.isSome && m.range.l = m.range.r

section TreeOps2

variable {K V C L : Type} [LinearOrder K] [Inhabited K] [Inhabited V]

/-- `insert_node` of the write guards (src/tree/interface.rs): attach an
already-allocated node (moved from another tree) at its search position,
reporting `DuplicateKey` when the key exists.  The error is returned
before any mutation. -/
def insert_node (VI : ValueImpl V C L) (ptr : Nat) (s : TreeData K V) :
    Except Error (TreeData K V) :=
  let key := (s.node ptr).key
  match search s.meta.root key s with
  | .here _ => .error .duplicateKey
  | .empty =>
    let s := { s with meta := { root := some ptr, range := ⟨some ptr, some ptr⟩, blackHeight := 1 } }
    .ok (s.modifyN ptr fun nd => nd.clear .black)
  | .leftOf parent =>
    .ok (insert_at VI 0 ptr parent (s.modifyN ptr fun nd => nd.clear .red))
  | .rightOf parent =>
    .ok (insert_at VI 1 ptr parent (s.modifyN ptr fun nd => nd.clear .red))

/-- `helper::<I>` inside `Tree::join_unchecked`: splice the red pivot in
with `this_child` on side `I` and the other tree's root on the far side,
rewire order threads and range, then fix up or (when the pivot became
the root) blacken it and bump the black height. -/
def joinUncheckedHelper (VI : ValueImpl V C L) (I : Nat) (parent thisChild : Option Nat)
    (pivot : Nat) (thatMeta : Bounds) (s : TreeData K V) : TreeData K V :=
  let thisMeta := s.meta
  let s := s.modifyN pivot fun nd =>
    { nd with
      color := .red, parent := parent,
      children := (Pair2.none2.set I thisChild).set (1 - I) thatMeta.root,
      order := (Pair2.none2.set I (thisMeta.range.get (1 - I))).set (1 - I) (thatMeta.range.get I) }
  let s := match thisChild with
    | some c => s.modifyN c fun nd => { nd with parent := some pivot }
    | none => s
  let s := match thatMeta.root with
    | some r => s.modifyN r fun nd => { nd with parent := some pivot }
    | none => s
  let s := match thisMeta.range.get (1 - I) with
    | some e => s.modifyN e fun nd => { nd with order := nd.order.set (1 - I) (some pivot) }
    | none => s
  let s := match thatMeta.range.get I with
    | some e => s.modifyN e fun nd => { nd with order := nd.order.set I (some pivot) }
    | none => s
  let s := { s with meta := { s.meta with range := s.meta.range.set (1 - I) (thatMeta.range.get (1 - I)) } }
  let s :=
    match parent with
    | some p => if (s.node p).parent.isSome then fix_insert VI pivot s else s
    | none =>
      let s := { s with meta := { s.meta with root := some pivot, blackHeight := s.meta.blackHeight + 1 } }
      s.modifyN pivot fun nd => { nd with color := .black }
  if VI.hasCumulant then propagate_cumulant VI pivot s else s

/-- The spine descent of `Tree::join_unchecked`: walk down side `1 - I`
(falling back to side `I` at a gap), counting black nodes until the
height difference is consumed. -/
def joinDescend (I : Nat) (s : TreeData K V) : Nat → Nat → Nat → Nat
  | 0, _, index => index
  | fuel + 1, diff, index =>
    if diff = 0 then index
    else
      let nd := s.node index
      let diff := if nd.isBlack then diff - 1 else diff
      let index2 :=
        match nd.children.get (1 - I) with
        | some nx => nx
        | none => (nd.children.get I).getD 0
      joinDescend I s fuel diff index2

/-- `Tree::join_unchecked::<I>`: concatenate the tree `thatMeta` onto
this tree through `pivot`.  When the black heights match the pivot
becomes the new root; otherwise descend this tree's boundary spine to
the matching level and splice there. -/
def join_unchecked (VI : ValueImpl V C L) (I : Nat) (s : TreeData K V) (pivot : Nat)
    (thatMeta : Bounds) : TreeData K V :=
  let diff := s.meta.blackHeight - thatMeta.blackHeight
  if diff = 0 then joinUncheckedHelper VI I none s.meta.root pivot thatMeta s
  else
    let index := s.meta.root.getD 0
    let index := joinDescend I s (s.arena.items.length + 1) diff index
    let s := replace index (some pivot) s
    joinUncheckedHelper VI I ((s.node index).parent) (some index) pivot thatMeta s

/-- `Tree::join`: join two trees of the same arena through the pivot
node, with fast paths for an empty operand and both orientations of the
range check; overlapping ranges hand both metadata records back with
the error. -/
def join (VI : ValueImpl V C L) (a : Arena (Node K V)) (selfM : Bounds) (pivot : Nat)
    (otherM : Bounds) : Arena (Node K V) × JoinRes :=
  if selfM.root.isNone then
    match insert_node VI pivot ⟨a, otherM⟩ with
    | .error e => (a, .err selfM otherM e)
    | .ok s => (s.arena, .ok s.meta)
  else if otherM.root.isNone then
    match insert_node VI pivot ⟨a, selfM⟩ with
    | .error e => (a, .err selfM otherM e)
    | .ok s => (s.arena, .ok s.meta)
  else
    let sD : TreeData K V := ⟨a, selfM⟩
    let center := (sD.node pivot).key
    let thisMin := (sD.node (selfM.range.l.getD 0)).key
    let thisMax := (sD.node (selfM.range.r.getD 0)).key
    let thatMin := (sD.node (otherM.range.l.getD 0)).key
    let thatMax := (sD.node (otherM.range.r.getD 0)).key
    if thisMax < center ∧ center < thatMin then
      if otherM.blackHeight ≤ selfM.blackHeight then
        let s := join_unchecked VI 0 ⟨a, selfM⟩ pivot otherM
        (s.arena, .ok s.meta)
      else
        let s := join_unchecked VI 1 ⟨a, otherM⟩ pivot selfM
        (s.arena, .ok s.meta)
    else if thatMax < center ∧ center < thisMin then
      if otherM.blackHeight ≤ selfM.blackHeight then
        let s := join_unchecked VI 1 ⟨a, selfM⟩ pivot otherM
        (s.arena, .ok s.meta)
      else
        let s := join_unchecked VI 0 ⟨a, otherM⟩ pivot selfM
        (s.arena, .ok s.meta)
    else (a, .err selfM otherM .overlapping)

/-- `Tree::split_at_root` (src/tree/interface.rs): detach the root,
turning its two subtrees into independent trees.  Returns the left tree
(state with the left metadata), the detached root's slot, and the right
tree's metadata. -/
def split_at_root (s : TreeData K V) : TreeData K V × Option Nat × Bounds :=
  match s.meta.root with
  | none => (s, none, Bounds.dflt)
  | some index =>
    let children := (s.node index).children
    let order := (s.node index).order
    let s := s.modifyN index fun nd => { nd with children := Pair2.none2, order := Pair2.none2 }
    let rightB := s.meta
    let s :=
      match children.get 0 with
      | some l =>
        let s := { s with meta := { s.meta with root := children.get 0, range := s.meta.range.set 1 (order.get 0) } }
        let s :=
          match order.get 0 with
          | some e => s.modifyN e fun nd => { nd with order := nd.order.set 1 none }
          | none => s
        let s := s.modifyN l fun nd => { nd with parent := none }
        if (s.node l).isRed then s.modifyN l fun nd => { nd with color := .black }
        else { s with meta := { s.meta with blackHeight := s.meta.blackHeight - 1 } }
      | none => { s with meta := Bounds.dflt }
    let (s, rightB) :=
      match children.get 1 with
      | some r =>
        let rightB := { rightB with root := children.get 1, range := rightB.range.set 0 (order.get 1) }
        let s :=
          match order.get 1 with
          | some e => s.modifyN e fun nd => { nd with order := nd.order.set 0 none }
          | none => s
        let s := s.modifyN r fun nd => { nd with parent := none }
        if (s.node r).isRed then (s.modifyN r fun nd => { nd with color := .black }, rightB)
        else (s, { rightB with blackHeight := rightB.blackHeight - 1 })
      | none => (s, Bounds.dflt)
    (s, some index, rightB)

/-- `Tree::split_node`: split at a key.  Fast paths handle the empty
tree, keys outside the range, keys equal to the range ends (which are
unlinked via `remove_node`), the root key and singleton trees; otherwise
split at the root and recurse into the side that can contain the key,
joining the other side back.  `fuel` bounds the recursion depth (the
source recursion descends one tree level per call). -/
def split_node (VI : ValueImpl V C L) :
    Nat → TreeData K V → K → TreeData K V × Option Nat × Bounds
  | 0, s, _ => (s, none, Bounds.dflt)
  | fuel + 1, s, key =>
    if s.meta.root.isNone then (s, none, Bounds.dflt)
    else
      let minK := (s.node (s.meta.range.get 0 |>.getD 0)).key
      match kcmp minK key with
      | .gt => (⟨s.arena, Bounds.dflt⟩, none, s.meta)
      | .eq =>
        let mn := s.meta.range.get 0 |>.getD 0
        let (mnIdx, s) := remove_at VI mn s
        (⟨s.arena, Bounds.dflt⟩, some mnIdx, s.meta)
      | .lt =>
        let maxK := (s.node (s.meta.range.get 1 |>.getD 0)).key
        match kcmp maxK key with
        | .lt => (s, none, Bounds.dflt)
        | .eq =>
          let mx := s.meta.range.get 1 |>.getD 0
          let (mxIdx, s) := remove_at VI mx s
          (s, some mxIdx, Bounds.dflt)
        | .gt =>
          let index := s.meta.root.getD 0
          match kcmp (s.node index).key key with
          | .eq => split_at_root s
          | ord =>
            if isSingle s.meta then
              if ord = .lt then (s, none, Bounds.dflt)
              else (⟨s.arena, Bounds.dflt⟩, none, s.meta)
            else
              let (sL, rootO, rightB) := split_at_root s
              let root := rootO.getD 0
              if ord = .gt then
                let (sLL, leftChild, centerB) := split_node VI fuel sL key
                let (a2, jr) := join VI sLL.arena centerB root rightB
                let rightRes := match jr with | .ok m => m | _ => Bounds.dflt
                (⟨a2, sLL.meta⟩, leftChild, rightRes)
              else
                let (sC, rightChild, rightB2) := split_node VI fuel ⟨sL.arena, rightB⟩ key
                let (a2, jr) := join VI sC.arena sL.meta root sC.meta
                let leftRes := match jr with | .ok m => m | _ => Bounds.dflt
                (⟨a2, leftRes⟩, rightChild, rightB2)

/-- `Tree::split`: split at a key and free the pivot slot, returning the
left tree, the pivot's payload and the right tree's metadata. -/
def splitG (VI : ValueImpl V C L) (s : TreeData K V) (key : K) :
    TreeData K V × Option L × Bounds :=
  let (sL, pivot, rightB) := split_node VI (s.arena.items.length + 1) s key
  match pivot with
  | some index =>
    let (a, nodeOpt) := sL.arena.remove index
    (⟨a, sL.meta⟩, nodeOpt.map fun nd => VI.intoV nd.value, rightB)
  | none => (sL, none, rightB)

/-- `Tree::union_disjoint`: fast paths for empty and singleton operands
(the singleton is re-inserted by key, with the `unwrap_unchecked` on a
duplicate key modelled as `ub`); otherwise check the ranges, unlink the
boundary node of `self` as pivot and join. -/
def union_disjoint (VI : ValueImpl V C L) (a : Arena (Node K V)) (selfM otherM : Bounds) :
    Arena (Node K V) × JoinRes :=
  match lenEstimate selfM with
  | .empty => (a, .ok otherM)
  | .single =>
    (match insert_node VI (selfM.root.getD 0) ⟨a, otherM⟩ with
     | .ok s => (s.arena, .ok s.meta)
     | .error _ => (a, .ub))
  | .more _ =>
    match lenEstimate otherM with
    | .empty => (a, .ok selfM)
    | .single =>
      (match insert_node VI (otherM.root.getD 0) ⟨a, selfM⟩ with
       | .ok s => (s.arena, .ok s.meta)
       | .error _ => (a, .ub))
    | .more _ =>
      let sD : TreeData K V := ⟨a, selfM⟩
      let thisMin := (sD.node (selfM.range.l.getD 0)).key
      let thisMax := (sD.node (selfM.range.r.getD 0)).key
      let thatMin := (sD.node (otherM.range.l.getD 0)).key
      let thatMax := (sD.node (otherM.range.r.getD 0)).key
      if thisMin < thatMin then
        if thatMin ≤ thisMax then (a, .err selfM otherM .overlapping)
        else
          let (pivotIdx, s) := remove_at VI (selfM.range.r.getD 0) ⟨a, selfM⟩
          let (a2, jr) := join VI s.arena s.meta pivotIdx otherM
          (a2, match jr with | .ok m => .ok m | _ => .ub)
      else
        if thisMin ≤ thatMax then (a, .err selfM otherM .overlapping)
        else
          let (pivotIdx, s) := remove_at VI (selfM.range.l.getD 0) ⟨a, selfM⟩
          let (a2, jr) := join VI s.arena s.meta pivotIdx otherM
          (a2, match jr with | .ok m => .ok m | _ => .ub)

/-- Black-link audit of a subtree: returns its black height when the
subtree has no red node with a red child and all paths agree, `none`
otherwise (also on vacant slots and on fuel exhaustion). -/
def rbCheck (s : TreeData K V) : Nat → Option Nat → Option Nat
  | _, none => some 0
  | 0, some _ => none
  | fuel + 1, some i =>
    match s.arena.get i with
    | none => none
    | some nd =>
      let childRed : Option Nat → Bool := fun c =>
        match c with
        | some j => (match s.arena.get j with | some m => m.isRed | none => false)
        | none => false
      match rbCheck s fuel (nd.children.get 0), rbCheck s fuel (nd.children.get 1) with
      | some lh, some rh =>
        if lh ≠ rh then none
        else if nd.isRed && (childRed (nd.children.get 0) || childRed (nd.children.get 1)) then none
        else some (lh + (if nd.isBlack then 1 else 0))
      | _, _ => none

/-- The red-black invariant P1 exactly as the spec states it: the root
is black, no red node has a red child, and every root-to-NIL path
carries `black_height` black links. -/
def rbInvariant (s : TreeData K V) : Bool :=
  match s.meta.root with
  | none => s.meta.blackHeight = 0
  | some r =>
    (s.node r).isBlack && rbCheck s (s.arena.items.length + 1) (some r) = some s.meta.blackHeight

end TreeOps2

/-- The cumulant invariant P5/I7 of the spec, as a subtree audit: every
node's cumulant equals the fold `update_cumulant` computes from its
local value and its children's cumulants. -/
def cumulantCheck {K V C L : Type} [Inhabited K] [Inhabited V] [DecidableEq C]
    (VI : ValueImpl V C L) (s : TreeData K V) : Nat → Option Nat → Bool
  | _, none => true
  | 0, some _ => false
  | fuel + 1, some i =>
    match s.arena.get i with
    | none => false
    | some nd =>
      let lc := nd.children.get 0 |>.bind fun j => (s.arena.get j).map fun m => VI.cumulant m.value
      let rc := nd.children.get 1 |>.bind fun j => (s.arena.get j).map fun m => VI.cumulant m.value
      decide (VI.cumulant nd.value = VI.cumulant (VI.updateCumulant nd.value lc rc)) &&
        cumulantCheck VI s fuel (nd.children.get 0) &&
        cumulantCheck VI s fuel (nd.children.get 1)

/-- Whole-tree form of the cumulant invariant. -/
def cumulantInvariant {K V C L : Type} [Inhabited K] [Inhabited V] [DecidableEq C]
    (VI : ValueImpl V C L) (s : TreeData K V) : Bool :=
  cumulantCheck VI s (s.arena.items.length + 1) s.meta.root

/-- Invariant I5 of the spec: `root == None ⇔ range == [None, None] ⇔
black_height == 0`. -/
def i5Holds (m : Bounds) : Prop :=
  (m.root = none ↔ m.range = Pair2.none2) ∧ (m.range = Pair2.none2 ↔ m.blackHeight = 0)

instance (m : Bounds) : Decidable (i5Holds m) := by
  unfold i5Holds
  infer_instance

/-- The `min()` accessor of the guard API. -/
def minG {K V : Type} [Inhabited K] [Inhabited V] (s : TreeData K V) : Option K :=
  (s.meta.range.get 0).map fun i => (s.node i).key

/-- The `max()` accessor of the guard API. -/
def maxG {K V : Type} [Inhabited K] [Inhabited V] (s : TreeData K V) : Option K :=
  (s.meta.range.get 1).map fun i => (s.node i).key

/-- Key stored at an optional slot of an arena (junk on `none` or a
vacant slot, matching the `unwrap` panics). -/
def keyAt {K V : Type} [Inhabited K] [Inhabited V] (a : Arena (Node K V)) (i : Option Nat) : K :=
  ((⟨a, Bounds.dflt⟩ : TreeData K V).node (i.getD 0)).key

/-- An empty tree over a fresh arena, keys and values `Nat`, no
cumulant (`SimpleWeakForest::new().insert()`). -/
def emptyTree : TreeData Nat Nat := ⟨Arena.new, Bounds.dflt⟩

/-- One public insert with key = value (`alloc.insert(x, x)` of the
tests). -/
def natIns (s : TreeData Nat Nat) (k : Nat) : TreeData Nat Nat :=
  (insertG (noCumulant Nat) k k s).1

/-- Tree built by successive public inserts into a fresh arena. -/
def treeOfList (ks : List Nat) : TreeData Nat Nat :=
  ks.foldl natIns emptyTree

/-- Tree built by successive public inserts into an existing arena (a
second tree of the same forest). -/
def treeOfListOn (a : Arena (Node Nat Nat)) (ks : List Nat) : TreeData Nat Nat :=
  ks.foldl natIns ⟨a, Bounds.dflt⟩

/-- First operand of the C2 failing input: keys 1..6 by public inserts. -/
def c2left : TreeData Nat Nat := treeOfList [1, 2, 3, 4, 5, 6]

/-- Second operand of the C2 failing input: keys {8, 9} in the same
forest. -/
def c2right : TreeData Nat Nat := treeOfListOn c2left.arena [8, 9]

/-- The C2 failing call: `union_disjoint` of the two disjoint trees. -/
def c2out : Arena (Node Nat Nat) × JoinRes :=
  union_disjoint (noCumulant Nat) c2right.arena c2left.meta c2right.meta

/-- C2: the red-black invariant is claimed to hold after every public
mutating call, but `union_disjoint` of the reachable trees {1..6} and
{8, 9} succeeds and returns a tree in which the node holding key 6
(slot 5) is red and its left child holding key 4 (slot 3) is also red:
`join_unchecked`'s spine descent may stop at a red child and splice the
red pivot above it without running the insert fix-up (the pivot hangs
directly under the root, for which `fix_insert` is skipped). -/
theorem c2_union_disjoint_breaks_rb_invariant :
    c2out.2 = .ok ⟨some 1, ⟨some 0, some 7⟩, 2⟩ ∧
    rbInvariant (⟨c2out.1, ⟨some 1, ⟨some 0, some 7⟩, 2⟩⟩ : TreeData Nat Nat) = false ∧
    ((⟨c2out.1, ⟨some 1, ⟨some 0, some 7⟩, 2⟩⟩ : TreeData Nat Nat).node 5).key = 6 ∧
    ((⟨c2out.1, ⟨some 1, ⟨some 0, some 7⟩, 2⟩⟩ : TreeData Nat Nat).node 5).color = .red ∧
    ((⟨c2out.1, ⟨some 1, ⟨some 0, some 7⟩, 2⟩⟩ : TreeData Nat Nat).node 5).children.get 0 = some 3 ∧
    ((⟨c2out.1, ⟨some 1, ⟨some 0, some 7⟩, 2⟩⟩ : TreeData Nat Nat).node 3).color = .red := by
  refine ⟨by rfl, by rfl, by rfl, by rfl, by rfl, by rfl⟩

/-- The C3 failing input: a single public insert of `(1, 1)` into an
empty tree with the additive cumulant value. -/
def c3out : TreeData Nat (Nat × Nat) :=
  (insertG sumValue 1 1 ⟨Arena.new, Bounds.dflt⟩).1

/-- C3: the cumulant invariant is claimed to hold after every public
mutating operation, but the `Empty` branch of `insert` installs the
root with `V::new`'s default cumulant and never propagates: after
inserting `(1, 1)` into an empty tree the root stores cumulant 0 while
the fold over its local value and (absent) children yields 1.  (The
`Here` value-replacing branch has the same omission.) -/
theorem c3_insert_skips_cumulant_update :
    cumulantInvariant sumValue c3out = false ∧
    (c3out.node 0).value = (1, 0) ∧
    sumValue.cumulant (sumValue.updateCumulant (c3out.node 0).value none none) = 1 ∧
    sumValue.cumulant (c3out.node 0).value = 0 := by
  refine ⟨by rfl, by rfl, by rfl, by rfl⟩

/-- The C8 failing input: build the one-node tree {1} by a public
insert, then `clear` it. -/
def c8out : TreeData Nat Nat := clearG (treeOfList [1])

/-- C8: invariant I5 is claimed to be preserved by every public
operation, in particular by `clear`, but `TreeAllocGuard::clear` resets
`root` and `range` without resetting `black_height`: after clearing the
one-node tree the metadata reads `root = None`, `range = [None, None]`,
`black_height = 1`, violating `root == None ⇔ black_height == 0`. -/
theorem c8_clear_leaves_black_height :
    c8out.meta.root = none ∧ c8out.meta.range = Pair2.none2 ∧
    c8out.meta.blackHeight = 1 ∧ ¬ i5Holds c8out.meta := by
  refine ⟨by rfl, by rfl, by rfl, by decide⟩

/-- First operand of the C5 counterexample: the singleton {5}. -/
def c5self : TreeData Nat Nat := treeOfList [5]

/-- Second operand of the C5 counterexample: {4, 6} in the same
forest; its key range [4, 6] contains 5. -/
def c5other : TreeData Nat Nat := treeOfListOn c5self.arena [4, 6]

/-- The C5 counterexample call. -/
def c5out : Arena (Node Nat Nat) × JoinRes :=
  union_disjoint (noCumulant Nat) c5other.arena c5self.meta c5other.meta

/-- C5 counterexample: the key ranges [5, 5] and [4, 6] intersect, yet
`union_disjoint` does not return the `Overlapping` error: the singleton
fast path skips the range check and inserts the lone node by key,
succeeding.  The claimed equivalence (error iff ranges intersect) is
therefore false. -/
theorem c5_singleton_overlap_not_reported :
    minG (⟨c5other.arena, c5self.meta⟩ : TreeData Nat Nat) = some 5 ∧
    maxG (⟨c5other.arena, c5self.meta⟩ : TreeData Nat Nat) = some 5 ∧
    minG c5other = some 4 ∧ maxG c5other = some 6 ∧
    c5out.2 = .ok ⟨some 0, ⟨some 1, some 2⟩, 1⟩ := by
  refine ⟨by rfl, by rfl, by rfl, by rfl, by rfl⟩

section C5Amended

variable {K V C L : Type} [LinearOrder K] [Inhabited K] [Inhabited V]

/-- C5 amended: when both trees hold at least two nodes (their
`len_estimate` is `More`, so neither fast path fires) and each tree's
recorded range is ordered, `union_disjoint` returns the `Overlapping`
error — handing back the untouched arena and both original metadata
records — exactly when the key intervals `[min A, max A]` and
`[min B, max B]` intersect.  (The empty and singleton fast paths of the
source never report `Overlapping`, which is what the counterexample
exhibits.) -/
theorem c5_union_disjoint_overlap_iff (VI : ValueImpl V C L) (a : Arena (Node K V))
    (mA mB : Bounds)
    (hA : ∃ n, lenEstimate mA = .more n) (hB : ∃ n, lenEstimate mB = .more n)
    (hAo : (keyAt a mA.range.l : K) ≤ keyAt a mA.range.r)
    (hBo : (keyAt a mB.range.l : K) ≤ keyAt a mB.range.r) :
    union_disjoint VI a mA mB = (a, .err mA mB .overlapping) ↔
      ((keyAt a mA.range.l : K) ≤ keyAt a mB.range.r ∧
       (keyAt a mB.range.l : K) ≤ keyAt a mA.range.r) := by
  obtain ⟨nA, hA⟩ := hA
  obtain ⟨nB, hB⟩ := hB
  unfold union_disjoint
  rw [hA, hB]
  simp only [keyAt, TreeData.node, Bounds.dflt] at hAo hBo ⊢
  split_ifs with h1 h2 h3
  · exact iff_of_true rfl ⟨le_of_lt (lt_of_lt_of_le h1 hBo), h2⟩
  · refine iff_of_false ?_ fun h => h2 h.2
    rcases remove_at VI (mA.range.r.getD 0) ⟨a, mA⟩ with ⟨pIdx, s1⟩
    rcases hJ : join VI s1.arena s1.meta pIdx mB with ⟨a2, jr⟩
    rcases jr with m | _ | _ <;> simp
  · exact iff_of_true rfl ⟨h3, le_trans (not_lt.mp h1) hAo⟩
  · refine iff_of_false ?_ fun h => h3 h.1
    rcases remove_at VI (mA.range.l.getD 0) ⟨a, mA⟩ with ⟨pIdx, s1⟩
    rcases hJ : join VI s1.arena s1.meta pIdx mB with ⟨a2, jr⟩
    rcases jr with m | _ | _ <;> simp

end C5Amended

/-- First operand for the C5 amended-claim witness: keys {1, 2}. -/
def c5wA : TreeData Nat Nat := treeOfList [1, 2]

/-- Second operand for the C5 amended-claim witness: keys {10, 11}. -/
def c5wB : TreeData Nat Nat := treeOfListOn c5wA.arena [10, 11]

/-- Witness for the amended C5 theorem at the concrete disjoint pair
{1, 2} and {10, 11}. -/
theorem c5_union_disjoint_overlap_iff_witness :
    union_disjoint (noCumulant Nat) c5wB.arena c5wA.meta c5wB.meta =
        (c5wB.arena, .err c5wA.meta c5wB.meta .overlapping) ↔
      ((keyAt c5wB.arena c5wA.meta.range.l : Nat) ≤ keyAt c5wB.arena c5wB.meta.range.r ∧
       (keyAt c5wB.arena c5wB.meta.range.l : Nat) ≤ keyAt c5wB.arena c5wA.meta.range.r) :=
  c5_union_disjoint_overlap_iff (noCumulant Nat) c5wB.arena c5wA.meta c5wB.meta
    ⟨31, by rfl⟩ ⟨31, by rfl⟩ (by decide) (by decide)

namespace Arena

/-- The intrusive free list made explicit: `Chain items head l` says
that following `Free(next)` links from `head` visits exactly the slots
in `l` and terminates.  Finiteness of the derivation rules out cycles. -/
inductive Chain {T : Type} (items : List (Entry T)) : Option Nat → List Nat → Prop where
  | nil : Chain items none []
  | cons {i : Nat} {next : Option Nat} {l : List Nat} :
      items.get? i = some (.free next) → Chain items next l → Chain items (some i) (i :: l)

/-- Invariant I1 of the spec: the free list is a well-formed chain of
`Free` slots. -/
def FreeWF (a : Arena T) : Prop := ∃ l, Chain a.items a.free l

theorem chain_determ {T : Type} {items : List (Entry T)} {r : Option Nat}
    {l₁ l₂ : List Nat} (h₁ : Chain items r l₁) (h₂ : Chain items r l₂) : l₁ = l₂ := by
  induction h₁ generalizing l₂ with
  | nil => cases h₂ with
    | nil => rfl
  | cons hget hc ih =>
    cases h₂ with
    | cons hget₂ hc₂ =>
      rw [hget] at hget₂
      cases hget₂
      rw [ih hc₂]

theorem chain_extract {T : Type} {items : List (Entry T)} {r : Option Nat}
    {l : List Nat} (h : Chain items r l) :
    ∀ j ∈ l, ∃ l', Chain items (some j) l' ∧ l'.length ≤ l.length := by
  induction h with
  | nil => intro j hj; cases hj
  | cons hget hc ih =>
    intro j hj
    rcases List.mem_cons.mp hj with rfl | hj
    · exact ⟨_, .cons hget hc, Nat.le_refl _⟩
    · obtain ⟨l', hl', hlen⟩ := ih j hj
      exact ⟨l', hl', Nat.le_succ_of_le hlen⟩

theorem chain_nodup {T : Type} {items : List (Entry T)} {r : Option Nat}
    {l : List Nat} (h : Chain items r l) : l.Nodup := by
  induction h with
  | nil => exact List.nodup_nil
  | cons hget hc ih =>
    refine List.nodup_cons.mpr ⟨fun hmem => ?_, ih⟩
    obtain ⟨l', hl', hlen⟩ := chain_extract hc _ hmem
    have := chain_determ hl' (.cons hget hc)
    subst this
    simp at hlen

theorem chain_set_other {T : Type} {items : List (Entry T)} {r : Option Nat}
    {l : List Nat} (h : Chain items r l) {j : Nat} (hj : j ∉ l) (e : Entry T) :
    Chain (items.set j e) r l := by
  induction h with
  | nil => exact .nil
  | cons hget hc ih =>
    refine .cons ?_ (ih fun hm => hj (List.mem_cons_of_mem _ hm))
    have hne : j ≠ _ := fun hji => hj (by rw [hji]; exact List.mem_cons_self _ _)
    rw [List.get?_set_ne _ _ hne]
    exact hget

theorem chain_append {T : Type} {items : List (Entry T)} {r : Option Nat}
    {l : List Nat} (h : Chain items r l) (e : Entry T) :
    Chain (items ++ [e]) r l := by
  induction h with
  | nil => exact .nil
  | cons hget hc ih =>
    refine .cons ?_ ih
    rw [List.get?_append (List.get?_eq_some.mp hget).1]
    exact hget

/-- Entry occupancy test named for `occupiedCount`. -/
def entryOcc : Entry T → Bool
  | .occupied _ => true
  | .free _ => false

theorem occupiedCount_eq (a : Arena T) : a.occupiedCount = a.items.countP entryOcc := by
  unfold occupiedCount entryOcc
  rfl

/-- Everything `Arena.insert` guarantees on a well-formed arena: the
invariant is kept, the occupied count grows by one, the returned slot
was vacant and now holds the value, and every other slot is unchanged. -/
theorem insert_spec {T : Type} (a : Arena T) (v : T) (h : FreeWF a) :
    FreeWF (a.insert v).1 ∧
    (a.insert v).1.occupiedCount = a.occupiedCount + 1 ∧
    (a.insert v).1.get (a.insert v).2 = some v ∧
    a.get (a.insert v).2 = none ∧
    (∀ j, j ≠ (a.insert v).2 → (a.insert v).1.get j = a.get j) := by
  obtain ⟨l, hl⟩ := h
  unfold insert
  cases hfree : a.free with
  | none =>
    simp only
    refine ⟨⟨[], .nil⟩, ?_, ?_, ?_, ?_⟩
    · simp only [occupiedCount_eq, List.countP_append, List.countP_cons, List.countP_nil]
      simp [entryOcc]
    · unfold get
      simp [List.get?_concat_length]
    · unfold get
      simp [List.get?_eq_none.mpr (Nat.le_refl _)]
    · intro j hj
      unfold get
      rcases Nat.lt_or_ge j a.items.length with hlt | hge
      · rw [List.get?_append hlt]
      · rw [List.get?_eq_none.mpr hge, List.get?_eq_none.mpr ?_]
        simp only [List.length_append, List.length_cons, List.length_nil]
        omega
  | some head =>
    rw [hfree] at hl
    cases hl with
    | cons hget hc =>
      rename_i next l'
      have hlen : head < a.items.length := (List.get?_eq_some.mp hget).1
      simp only [hget]
      have hnd := chain_nodup (Chain.cons hget hc)
      have hnotmem : head ∉ l' := (List.nodup_cons.mp hnd).1
      have hgetE : a.items[head]? = some (Entry.free next) := by
        rw [← List.get?_eq_getElem?]
        exact hget
      have hEl : a.items[head] = Entry.free next := by
        rw [List.getElem?_eq_getElem hlen] at hgetE
        exact Option.some_injective _ hgetE
      refine ⟨⟨l', chain_set_other hc hnotmem _⟩, ?_, ?_, ?_, ?_⟩
      · simp only [occupiedCount_eq, List.countP_set _ _ _ _ hlen]
        rw [hEl]
        simp [entryOcc]
      · unfold get
        rw [List.get?_eq_getElem?, List.getElem?_set_eq_of_lt _ hlen]
      · unfold get
        rw [hget]
      · intro j hj
        unfold get
        rw [List.get?_set_ne _ _ fun hji => hj hji.symm]

/-- `Arena.remove` on an occupied slot: the payload comes back, the
occupied count drops by one, and other slots are unchanged. -/
theorem remove_spec {T : Type} (a : Arena T) (i : Nat) (w : T) (h : a.get i = some w) :
    (a.remove i).2 = some w ∧
    (a.remove i).1.occupiedCount + 1 = a.occupiedCount ∧
    (∀ j, j ≠ i → (a.remove i).1.get j = a.get j) := by
  have hget : a.items.get? i = some (.occupied w) := by
    unfold get at h
    revert h
    cases hg : a.items.get? i with
    | none => simp
    | some e => cases e <;> simp <;> intro h <;> simp [h]
  have hlen : i < a.items.length := (List.get?_eq_some.mp hget).1
  unfold remove
  rw [if_neg (by omega)]
  simp only [hget]
  refine ⟨trivial, ?_, ?_⟩
  · simp only [occupiedCount_eq, List.countP_set _ _ _ _ hlen]
    have hgetE : a.items[i]? = some (Entry.occupied w) := by
      rw [← List.get?_eq_getElem?]
      exact hget
    have hEl : a.items[i] = Entry.occupied w := by
      rw [List.getElem?_eq_getElem hlen] at hgetE
      exact Option.some_injective _ hgetE
    rw [hEl]
    have hnz : List.countP entryOcc a.items ≠ 0 := by
      intro h0
      have := List.countP_eq_zero.mp h0 _ (a.items.get?_mem hget)
      simp [entryOcc] at this
    simp [entryOcc]
    omega
  · intro j hj
    unfold get
    rw [List.get?_set_ne _ _ fun hji => hj hji.symm]

/-- `n` inserts in sequence, collecting the returned indices. -/
def insertMany {T : Type} : Arena T → List T → Arena T × List Nat
  | a, [] => (a, [])
  | a, v :: vs =>
    let p := a.insert v
    let q := insertMany p.1 vs
    (q.1, p.2 :: q.2)

/-- Removals of the given slots in sequence. -/
def removeMany {T : Type} : Arena T → List Nat → Arena T
  | a, [] => a
  | a, i :: idxs => removeMany (a.remove i).1 idxs

theorem insertMany_spec {T : Type} (vs : List T) :
    ∀ (a : Arena T), FreeWF a →
      FreeWF (insertMany a vs).1 ∧
      (insertMany a vs).1.occupiedCount = a.occupiedCount + vs.length ∧
      (insertMany a vs).2.length = vs.length ∧
      (insertMany a vs).2.Nodup ∧
      (∀ i ∈ (insertMany a vs).2, (insertMany a vs).1.get i ≠ none ∧ a.get i = none) ∧
      (∀ j, a.get j ≠ none → (insertMany a vs).1.get j = a.get j) := by
  induction vs with
  | nil =>
    intro a h
    exact ⟨h, rfl, rfl, List.nodup_nil, fun i hi => absurd hi (List.not_mem_nil _),
      fun j _ => rfl⟩
  | cons v vs ih =>
    intro a h
    obtain ⟨hwf1, hcnt1, hget1, hvac1, hframe1⟩ := insert_spec a v h
    obtain ⟨hwf, hcnt, hlen, hnd, hmem, hframe⟩ := ih (a.insert v).1 hwf1
    have hkeep : (insertMany (a.insert v).1 vs).1.get (a.insert v).2 = some v := by
      rw [hframe _ (by rw [hget1]; simp), hget1]
    refine ⟨hwf, by simpa [insertMany, hcnt1, Nat.add_assoc, Nat.add_comm 1] using hcnt,
      by simp [insertMany, hlen], ?_, ?_, ?_⟩
    · refine List.nodup_cons.mpr ⟨fun hm => ?_, hnd⟩
      have := (hmem _ hm).2
      rw [hget1] at this
      cases this
    · intro i hi
      rcases List.mem_cons.mp hi with rfl | hi
      · exact ⟨by simp only [insertMany]; rw [hkeep]; simp, hvac1⟩
      · refine ⟨(hmem i hi).1, ?_⟩
        by_contra hocc
        have hne : i ≠ (a.insert v).2 := by
          intro heq
          rw [heq, hvac1] at hocc
          exact hocc rfl
        have := hframe1 i hne
        rw [(hmem i hi).2] at this
        exact hocc this.symm
    · intro j hocc
      have hne : j ≠ (a.insert v).2 := by
        intro heq
        rw [heq, hvac1] at hocc
        exact hocc rfl
      simp only [insertMany]
      rw [hframe j (by rw [hframe1 j hne]; exact hocc), hframe1 j hne]

theorem removeMany_count {T : Type} (idxs : List Nat) :
    ∀ (a : Arena T), idxs.Nodup → (∀ i ∈ idxs, a.get i ≠ none) →
      (removeMany a idxs).occupiedCount + idxs.length = a.occupiedCount := by
  induction idxs with
  | nil => intro a _ _; rfl
  | cons i idxs ih =>
    intro a hnd hocc
    obtain ⟨hni, hnd'⟩ := List.nodup_cons.mp hnd
    obtain ⟨w, hw⟩ := Option.ne_none_iff_exists'.mp (hocc i (List.mem_cons_self _ _))
    obtain ⟨-, hcnt, hframe⟩ := remove_spec a i w hw
    have : ∀ j ∈ idxs, (a.remove i).1.get j ≠ none := by
      intro j hj
      rw [hframe j fun hji => hni (hji ▸ hj)]
      exact hocc j (List.mem_cons_of_mem _ hj)
    have hrec := ih (a.remove i).1 hnd' this
    simp only [removeMany, List.length_cons]
    omega

end Arena

/-- C7: performing `n` inserts and then removing the `n` returned
indices restores the arena's occupied count (the number of `Occupied`
slots) to its value before the sequence, for every arena whose free
list is well formed (invariant I1).  Note that the `len` field of the
source is *not* restored — `Arena::remove` never decrements it — but
the occupied count the claim speaks of is. -/
theorem c7_arena_occupied_count_restored {T : Type} (a : Arena T) (vs : List T)
    (h : Arena.FreeWF a) :
    (Arena.removeMany (Arena.insertMany a vs).1 (Arena.insertMany a vs).2).occupiedCount =
      a.occupiedCount := by
  obtain ⟨hwf, hcnt, hlen, hnd, hmem, hframe⟩ := Arena.insertMany_spec vs a h
  have := Arena.removeMany_count (Arena.insertMany a vs).2 (Arena.insertMany a vs).1 hnd
    fun i hi => (hmem i hi).1
  omega

/-- Witness for C7: two inserts and their removals on a fresh arena. -/
theorem c7_arena_occupied_count_restored_witness :
    (Arena.removeMany (Arena.insertMany (Arena.new : Arena Nat) [5, 7]).1
        (Arena.insertMany (Arena.new : Arena Nat) [5, 7]).2).occupiedCount =
      (Arena.new : Arena Nat).occupiedCount :=
  c7_arena_occupied_count_restored Arena.new [5, 7] ⟨[], Arena.Chain.nil⟩

/-- Inductive view of the pointer structure stored in the arena: the
shape a root reference unfolds to, remembering each node's slot index
and full record. -/
inductive ATree (K V : Type) where
  | nil
  | node (l : ATree K V) (i : Nat) (nd : Node K V) (r : ATree K V)

namespace ATree

/-- In-order list of (slot, node) pairs. -/
def assoc {K V : Type} : ATree K V → List (Nat × Node K V)
  | .nil => []
  | .node l i nd r => assoc l ++ (i, nd) :: assoc r

/-- In-order key list. -/
def keys {K V : Type} : ATree K V → List K
  | .nil => []
  | .node l _ nd r => keys l ++ nd.key :: keys r

/-- In-order slot list. -/
def idxs {K V : Type} : ATree K V → List Nat
  | .nil => []
  | .node l i _ r => idxs l ++ i :: idxs r

/-- Node count. -/
def size {K V : Type} : ATree K V → Nat
  | .nil => 0
  | .node l _ _ r => size l + size r + 1

/-- Binary-search-tree ordering (property P2 of the spec). -/
def BST {K V : Type} [LinearOrder K] : ATree K V → Prop
  | .nil => True
  | .node l _ nd r =>
    (∀ k ∈ keys l, k < nd.key) ∧ (∀ k ∈ keys r, nd.key < k) ∧ BST l ∧ BST r

/-- Leftmost (slot, node) of the view, when nonempty. -/
def firstNode {K V : Type} : ATree K V → Option (Nat × Node K V)
  | .nil => none
  | .node l i nd _ =>
    match firstNode l with
    | some p => some p
    | none => some (i, nd)

/-- Rightmost (slot, node) of the view, when nonempty. -/
def lastNode {K V : Type} : ATree K V → Option (Nat × Node K V)
  | .nil => none
  | .node _ i nd r =>
    match lastNode r with
    | some p => some p
    | none => some (i, nd)

theorem keys_eq_assoc_map {K V : Type} (t : ATree K V) :
    t.keys = t.assoc.map fun p => p.2.key := by
  induction t with
  | nil => rfl
  | node l i nd r ihl ihr => simp [keys, assoc, ihl, ihr]

theorem idxs_eq_assoc_map {K V : Type} (t : ATree K V) :
    t.idxs = t.assoc.map Prod.fst := by
  induction t with
  | nil => rfl
  | node l i nd r ihl ihr => simp [idxs, assoc, ihl, ihr]

theorem length_assoc {K V : Type} (t : ATree K V) : t.assoc.length = t.size := by
  induction t with
  | nil => rfl
  | node l i nd r ihl ihr => simp [assoc, size, ihl, ihr]; omega

theorem firstNode_eq_head {K V : Type} (t : ATree K V) :
    t.firstNode = t.assoc.head? := by
  induction t with
  | nil => rfl
  | node l i nd r ihl ihr =>
    simp only [firstNode, assoc, ihl]
    cases hl : l.assoc with
    | nil => simp
    | cons p rest => simp

theorem lastNode_eq_getLast {K V : Type} (t : ATree K V) :
    t.lastNode = t.assoc.getLast? := by
  induction t with
  | nil => rfl
  | node l i nd r ihl ihr =>
    simp only [lastNode, assoc, ihr, List.getLast?_append]
    cases hr : r.assoc with
    | nil => simp
    | cons p rest =>
      cases hgl : (p :: rest).getLast? with
      | none => simp at hgl
      | some q => simp [hgl]

end ATree

section SearchProofs

variable {K V C L : Type} [LinearOrder K] [Inhabited K] [Inhabited V]

/-- The pointer structure below `r` unfolds to the view `t`: each slot
is occupied and its children references unfold to the subviews. -/
inductive IsTree (a : Arena (Node K V)) : Option Nat → ATree K V → Prop where
  | nil : IsTree a none .nil
  | node {i : Nat} {nd : Node K V} {lt rt : ATree K V} :
      a.get i = some nd →
      IsTree a (nd.children.get 0) lt →
      IsTree a (nd.children.get 1) rt →
      IsTree a (some i) (.node lt i nd rt)

theorem IsTree.assoc_get {a : Arena (Node K V)} {r : Option Nat} {t : ATree K V}
    (h : IsTree a r t) : ∀ p ∈ t.assoc, a.get p.1 = some p.2 := by
  induction h with
  | nil => intro p hp; cases hp
  | node hget hl hr ihl ihr =>
    intro p hp
    rcases List.mem_append.mp hp with hp | hp
    · exact ihl p hp
    · rcases List.mem_cons.mp hp with rfl | hp
      · exact hget
      · exact ihr p hp

/-- Modelled from the spec: the standard BST descent (spec §4.3.1).  It
returns `Here(p)` on a key match and otherwise `LeftOf(parent)` or
`RightOf(parent)` where `parent` is the last visited node and the side
is the direction the descent wanted to continue; the accumulator pair
carries that last node and direction. -/
def specGo (f : Node K V → Ordering) : ATree K V → Option Nat → Bool → SearchResult Nat
  | .nil, some p, true => .leftOf p
  | .nil, some p, false => .rightOf p
  | .nil, none, _ => .empty
  | .node l i nd r, _, _ =>
    match f nd with
    | .gt => specGo f l (some i) true
    | .eq => .here i
    | .lt => specGo f r (some i) false

theorem searchGo_eq_specGo (f : Node K V → Ordering) (s : TreeData K V)
    {r : Option Nat} {t : ATree K V} (ht : IsTree s.arena r t) :
    ∀ (fuel : Nat), t.size < fuel → ∀ (parent : Option Nat) (left : Bool),
      searchGo f s fuel r parent left = specGo f t parent left := by
  induction ht with
  | nil =>
    intro fuel hfuel parent left
    cases fuel with
    | zero => omega
    | succ fuel =>
      cases parent with
      | none => simp [searchGo, specGo]
      | some p => cases left <;> simp [searchGo, specGo]
  | node hget hl hr ihl ihr =>
    rename_i i nd lt rt
    intro fuel hfuel parent left
    cases fuel with
    | zero => omega
    | succ fuel =>
      have hnode : s.node i = nd := by
        unfold TreeData.node
        rw [hget]
        rfl
      simp only [ATree.size] at hfuel
      simp only [searchGo, hnode, specGo]
      cases f nd with
      | gt => exact ihl fuel (by omega) (some i) true
      | eq => rfl
      | lt => exact ihr fuel (by omega) (some i) false

theorem kcmp_lt_iff {a b : K} : kcmp a b = .lt ↔ a < b := by
  unfold kcmp
  by_cases h1 : a < b
  · simp [h1]
  · rw [if_neg h1]
    by_cases h2 : a = b
    · subst h2
      simp
    · rw [if_neg h2]
      simp [h1]

theorem kcmp_eq_iff {a b : K} : kcmp a b = .eq ↔ a = b := by
  unfold kcmp
  by_cases h1 : a < b
  · rw [if_pos h1]
    simp
    exact ne_of_lt h1
  · rw [if_neg h1]
    by_cases h2 : a = b
    · rw [if_pos h2]
      simp [h2]
    · rw [if_neg h2]
      simp [h2]

theorem kcmp_gt_iff {a b : K} : kcmp a b = .gt ↔ b < a := by
  unfold kcmp
  by_cases h1 : a < b
  · rw [if_pos h1]
    simp
    exact le_of_lt h1
  · rw [if_neg h1]
    by_cases h2 : a = b
    · rw [if_pos h2]
      simp [h2]
    · rw [if_neg h2]
      simp
      exact lt_of_le_of_ne (not_lt.mp h1) (Ne.symm h2)

theorem specGo_some_parent_ne_empty (f : Node K V → Ordering) (t : ATree K V) :
    ∀ (p : Nat) (b : Bool), specGo f t (some p) b ≠ .empty := by
  induction t with
  | nil => intro p b; cases b <;> simp [specGo]
  | node l i nd r ihl ihr =>
    intro p b
    simp only [specGo]
    cases f nd with
    | gt => exact ihl i true
    | eq => simp
    | lt => exact ihr i false

theorem BST.keys_pairwise {t : ATree K V} (h : t.BST) : t.keys.Pairwise (· < ·) := by
  induction t with
  | nil => exact List.Pairwise.nil
  | node l i nd r ihl ihr =>
    obtain ⟨hlb, hrb, bl, br⟩ := h
    rw [ATree.keys, List.pairwise_append]
    refine ⟨ihl bl, List.pairwise_cons.mpr ⟨hrb, ihr br⟩, ?_⟩
    intro a ha b hb
    rcases List.mem_cons.mp hb with rfl | hb
    · exact hlb a ha
    · exact lt_trans (hlb a ha) (hrb b hb)

theorem pairwise_key_inj {α β : Type} [LinearOrder β] {l : List α} {f : α → β}
    (h : (l.map f).Pairwise (· < ·)) :
    ∀ x ∈ l, ∀ y ∈ l, f x = f y → x = y := by
  induction l with
  | nil => intro x hx; cases hx
  | cons hd tl ih =>
    rw [List.map_cons, List.pairwise_cons] at h
    intro x hx y hy hxy
    rcases List.mem_cons.mp hx with hx1 | hx1 <;> rcases List.mem_cons.mp hy with hy1 | hy1
    · rw [hx1, hy1]
    · have hlt := h.1 (f y) (List.mem_map_of_mem f hy1)
      rw [← hx1, hxy] at hlt
      exact absurd hlt (lt_irrefl _)
    · have hlt := h.1 (f x) (List.mem_map_of_mem f hx1)
      rw [← hy1, ← hxy] at hlt
      exact absurd hlt (lt_irrefl _)
    · exact ih h.2 x hx1 y hy1 hxy

theorem firstNode_mem {t : ATree K V} {p : Nat × Node K V} (h : t.firstNode = some p) :
    p ∈ t.assoc := by
  rw [ATree.firstNode_eq_head] at h
  cases ht : t.assoc with
  | nil => rw [ht] at h; cases h
  | cons q rest =>
    rw [ht] at h
    cases h
    exact List.mem_cons_self _ _

theorem mem_of_getLast_eq {α : Type} {l : List α} {a : α} (h : l.getLast? = some a) :
    a ∈ l := by
  obtain ⟨l', rfl⟩ := List.getLast?_eq_some_iff.mp h
  exact List.mem_append.mpr (Or.inr (List.mem_singleton_self _))

theorem lastNode_mem {t : ATree K V} {p : Nat × Node K V} (h : t.lastNode = some p) :
    p ∈ t.assoc := by
  rw [ATree.lastNode_eq_getLast] at h
  exact mem_of_getLast_eq h

theorem firstNode_key_le {t : ATree K V} (hb : t.BST) {i : Nat} {nd : Node K V}
    (hf : t.firstNode = some (i, nd)) : ∀ k ∈ t.keys, nd.key ≤ k := by
  have hh : t.keys.head? = some nd.key := by
    rw [ATree.keys_eq_assoc_map, List.head?_map, ← ATree.firstNode_eq_head, hf]
    rfl
  have hp := BST.keys_pairwise hb
  intro k hk
  cases hks : t.keys with
  | nil => rw [hks] at hk; cases hk
  | cons k0 rest =>
    rw [hks] at hh hp hk
    cases hh
    rcases List.mem_cons.mp hk with rfl | hk
    · exact le_refl _
    · exact le_of_lt ((List.pairwise_cons.mp hp).1 k hk)

theorem lastNode_key_ge {t : ATree K V} (hb : t.BST) {i : Nat} {nd : Node K V}
    (hf : t.lastNode = some (i, nd)) : ∀ k ∈ t.keys, k ≤ nd.key := by
  have hh : t.keys.getLast? = some nd.key := by
    rw [ATree.keys_eq_assoc_map, List.getLast?_map, ← ATree.lastNode_eq_getLast, hf]
    rfl
  have hp := BST.keys_pairwise hb
  intro k hk
  obtain ⟨l', hl'⟩ := List.getLast?_eq_some_iff.mp hh
  rw [hl'] at hp hk
  rcases List.mem_append.mp hk with hk | hk
  · have := List.pairwise_append.mp hp
    exact le_of_lt (this.2.2 k hk nd.key (List.mem_singleton_self _))
  · rw [List.mem_singleton.mp hk]

theorem IsTree.size_le {a : Arena (Node K V)} {r : Option Nat} {t : ATree K V}
    (hT : IsTree a r t) (hN : t.idxs.Nodup) : t.size ≤ a.items.length := by
  have hlen : t.idxs.length = t.size := by
    rw [ATree.idxs_eq_assoc_map, List.length_map, ATree.length_assoc]
  have hbound : ∀ i ∈ t.idxs, i < a.items.length := by
    intro i hi
    rw [ATree.idxs_eq_assoc_map] at hi
    obtain ⟨⟨j, nd⟩, hmem, rfl⟩ := List.mem_map.mp hi
    have hget := hT.assoc_get _ hmem
    unfold Arena.get at hget
    revert hget
    cases hg : a.items.get? j with
    | none => simp
    | some e =>
      intro
      exact (List.get?_eq_some.mp hg).1
  calc t.size = t.idxs.length := hlen.symm
    _ = t.idxs.toFinset.card := (List.toFinset_card_of_nodup hN).symm
    _ ≤ (Finset.range a.items.length).card := by
        refine Finset.card_le_card fun i hi => ?_
        rw [Finset.mem_range]
        exact hbound i (List.mem_toFinset.mp hi)
    _ = a.items.length := Finset.card_range _

theorem specGo_here_mem {t : ATree K V} {k : K} {p : Option Nat} {b : Bool} {i : Nat}
    (h : specGo (fun n => kcmp n.key k) t p b = .here i) :
    ∃ nd, (i, nd) ∈ t.assoc ∧ nd.key = k := by
  induction t generalizing p b with
  | nil => cases p with
    | none => cases h
    | some q => cases b <;> cases h
  | node l j nd r ihl ihr =>
    rw [specGo] at h
    revert h
    cases hc : kcmp nd.key k with
    | gt =>
      intro h
      obtain ⟨nd', hmem, hkey⟩ := ihl h
      exact ⟨nd', List.mem_append.mpr (Or.inl hmem), hkey⟩
    | eq =>
      intro h
      cases h
      exact ⟨nd, List.mem_append.mpr (Or.inr (List.mem_cons_self _ _)), kcmp_eq_iff.mp hc⟩
    | lt =>
      intro h
      obtain ⟨nd', hmem, hkey⟩ := ihr h
      exact ⟨nd', List.mem_append.mpr (Or.inr (List.mem_cons_of_mem _ hmem)), hkey⟩

theorem specGo_mem_here {t : ATree K V} (hb : t.BST) {k : K} (hk : k ∈ t.keys)
    (p : Option Nat) (b : Bool) :
    ∃ i nd, specGo (fun n => kcmp n.key k) t p b = .here i ∧
      (i, nd) ∈ t.assoc ∧ nd.key = k := by
  induction t generalizing p b with
  | nil => cases hk
  | node l j nd r ihl ihr =>
    obtain ⟨hlb, hrb, bl, br⟩ := hb
    rw [ATree.keys] at hk
    rw [specGo]
    rcases List.mem_append.mp hk with hk | hk
    · have : kcmp nd.key k = .gt := kcmp_gt_iff.mpr (hlb k hk)
      rw [this]
      obtain ⟨i, nd', hres, hmem, hkey⟩ := ihl bl hk (some j) true
      exact ⟨i, nd', hres, List.mem_append.mpr (Or.inl hmem), hkey⟩
    · rcases List.mem_cons.mp hk with rfl | hk
      · have heq : kcmp nd.key nd.key = .eq := kcmp_eq_iff.mpr rfl
        rw [heq]
        exact ⟨j, nd, rfl, List.mem_append.mpr (Or.inr (List.mem_cons_self _ _)), rfl⟩
      · have : kcmp nd.key k = .lt := kcmp_lt_iff.mpr (hrb k hk)
        rw [this]
        obtain ⟨i, nd', hres, hmem, hkey⟩ := ihr br hk (some j) false
        exact ⟨i, nd', hres, List.mem_append.mpr (Or.inr (List.mem_cons_of_mem _ hmem)), hkey⟩

/-- The well-formedness a search-related claim assumes: the root
unfolds to the view `t`, the view is a BST on distinct slots, and the
recorded range names its leftmost and rightmost nodes. -/
structure TreeWF (s : TreeData K V) (t : ATree K V) : Prop where
  tree : IsTree s.arena s.meta.root t
  bst : t.BST
  nodup : t.idxs.Nodup
  rangeL : s.meta.range.l = t.firstNode.map Prod.fst
  rangeR : s.meta.range.r = t.lastNode.map Prod.fst

theorem IsTree.nil_root {a : Arena (Node K V)} {r : Option Nat}
    (h : IsTree a r ATree.nil) : r = none := by
  cases h
  rfl

theorem IsTree.node_root {a : Arena (Node K V)} {r : Option Nat} {lt rt : ATree K V}
    {i : Nat} {nd : Node K V} (h : IsTree a r (ATree.node lt i nd rt)) : r = some i := by
  cases h
  rfl

theorem node_of_assoc {s : TreeData K V} {t : ATree K V} {r : Option Nat}
    (hT : IsTree s.arena r t) {i : Nat} {nd : Node K V} (h : (i, nd) ∈ t.assoc) :
    s.node i = nd := by
  have := hT.assoc_get _ h
  unfold TreeData.node
  rw [this]
  rfl

theorem assoc_key_unique {t : ATree K V} (hb : t.BST) {p q : Nat × Node K V}
    (hp : p ∈ t.assoc) (hq : q ∈ t.assoc) (hk : p.2.key = q.2.key) : p = q := by
  have hpw : (t.assoc.map fun x => x.2.key).Pairwise (· < ·) := by
    rw [← ATree.keys_eq_assoc_map]
    exact BST.keys_pairwise hb
  exact pairwise_key_inj hpw p hp q hq hk

theorem firstNode_of_node {lt rt : ATree K V} {i : Nat} {nd : Node K V} :
    ∃ p, (ATree.node lt i nd rt).firstNode = some p := by
  rw [ATree.firstNode]
  cases h : lt.firstNode with
  | none => exact ⟨(i, nd), rfl⟩
  | some p => exact ⟨p, rfl⟩

theorem lastNode_of_node {lt rt : ATree K V} {i : Nat} {nd : Node K V} :
    ∃ p, (ATree.node lt i nd rt).lastNode = some p := by
  rw [ATree.lastNode]
  cases h : rt.lastNode with
  | none => exact ⟨(i, nd), rfl⟩
  | some p => exact ⟨p, rfl⟩

/-- C9: characterisation of the bounded search on a well-formed tree.
(1) `Empty` is returned exactly for the empty tree; (2) a key below the
minimum yields `LeftOf(min)` from any start pointer (the fast path does
not descend); (3) a key above the maximum yields `RightOf(max)` from
any start pointer; (4) `Here(p)` is returned exactly when node `p`
holds the key; (5) for a key strictly inside the range the result is
the spec's BST descent from the root (`specGo`), which on a miss is by
definition `LeftOf`/`RightOf` of the last visited node with the side
the descent wanted to continue. -/
theorem c9_search_characterisation (s : TreeData K V) (t : ATree K V) (k : K)
    (hWF : TreeWF s t) :
    (search s.meta.root k s = .empty ↔ s.meta.root = none) ∧
    (∀ i nd, t.firstNode = some (i, nd) → k < nd.key →
       ∀ start, search_by (fun n => kcmp n.key k) start s = .leftOf i) ∧
    (∀ i nd, t.lastNode = some (i, nd) → nd.key < k →
       ∀ start, search_by (fun n => kcmp n.key k) start s = .rightOf i) ∧
    (∀ p, search s.meta.root k s = .here p ↔ ∃ nd, (p, nd) ∈ t.assoc ∧ nd.key = k) ∧
    (∀ iL ndL iR ndR, t.firstNode = some (iL, ndL) → t.lastNode = some (iR, ndR) →
       ndL.key < k → k < ndR.key →
       search s.meta.root k s = specGo (fun n => kcmp n.key k) t none false) := by
  obtain ⟨hT, hB, hN, hL, hR⟩ := hWF
  cases t with
  | nil =>
    have hroot : s.meta.root = none := hT.nil_root
    have hLn : s.meta.range.l = none := by rw [hL, ATree.firstNode]; rfl
    have hs : ∀ start, search_by (fun n => kcmp n.key k) start s = .empty := by
      intro start
      unfold search_by
      rw [hLn]
    refine ⟨⟨fun _ => hroot, fun _ => hs _⟩, ?_, ?_, ?_, ?_⟩
    · intro i nd hf
      rw [ATree.firstNode] at hf
      cases hf
    · intro i nd hf
      rw [ATree.lastNode] at hf
      cases hf
    · intro p
      constructor
      · intro h
        rw [show search s.meta.root k s = search_by (fun n => kcmp n.key k) s.meta.root s from rfl,
          hs] at h
        cases h
      · rintro ⟨nd, hmem, -⟩
        cases hmem
    · intro iL ndL iR ndR hf
      rw [ATree.firstNode] at hf
      cases hf
  | node lt rootI rootNd rt =>
    obtain ⟨⟨iL, ndL⟩, hfn⟩ :=
      (firstNode_of_node : ∃ p, (ATree.node lt rootI rootNd rt).firstNode = some p)
    obtain ⟨⟨iR, ndR⟩, hln⟩ :=
      (lastNode_of_node : ∃ p, (ATree.node lt rootI rootNd rt).lastNode = some p)
    have hroot : s.meta.root = some rootI := hT.node_root
    have hLl : s.meta.range.l = some iL := by rw [hL, hfn]; rfl
    have hRr : s.meta.range.r = some iR := by rw [hR, hln]; rfl
    have hmemL := firstNode_mem hfn
    have hmemR := lastNode_mem hln
    have hndL : s.node iL = ndL := node_of_assoc hT hmemL
    have hndR : s.node iR = ndR := node_of_assoc hT hmemR
    have hkeyLmem : ndL.key ∈ (ATree.node lt rootI rootNd rt).keys := by
      rw [ATree.keys_eq_assoc_map]
      exact List.mem_map_of_mem _ hmemL
    have hkeyRmem : ndR.key ∈ (ATree.node lt rootI rootNd rt).keys := by
      rw [ATree.keys_eq_assoc_map]
      exact List.mem_map_of_mem _ hmemR
    have hLR : ndL.key ≤ ndR.key := firstNode_key_le hB hfn _ hkeyRmem
    have hT' : IsTree s.arena (some rootI) (ATree.node lt rootI rootNd rt) := hroot ▸ hT
    have hfuel : (ATree.node lt rootI rootNd rt).size < s.arena.items.length + 1 :=
      Nat.lt_succ_of_le (hT.size_le hN)
    have hgo := searchGo_eq_specGo (fun n => kcmp n.key k) s hT'
      (s.arena.items.length + 1) hfuel none false
    have hunfold : ∀ start, search_by (fun n => kcmp n.key k) start s =
        (match kcmp ndL.key k with
         | .gt => .leftOf iL
         | .eq => .here iL
         | .lt =>
           match kcmp ndR.key k with
           | .lt => .rightOf iR
           | .eq => .here iR
           | .gt => searchGo (fun n => kcmp n.key k) s (s.arena.items.length + 1) start none false) := by
      intro start
      unfold search_by
      rw [hLl, hRr]
      simp only [hndL, hndR]
    have hspec_ne : specGo (fun n => kcmp n.key k) (ATree.node lt rootI rootNd rt) none false ≠
        .empty := by
      rw [specGo]
      cases kcmp rootNd.key k with
      | gt => exact specGo_some_parent_ne_empty _ _ _ _
      | eq => simp
      | lt => exact specGo_some_parent_ne_empty _ _ _ _
    refine ⟨?_, ?_, ?_, ?_, ?_⟩
    · refine ⟨fun h => ?_, fun h => by rw [hroot] at h; cases h⟩
      exfalso
      rw [show search s.meta.root k s = search_by (fun n => kcmp n.key k) s.meta.root s from rfl,
        hunfold] at h
      revert h
      cases hc1 : kcmp ndL.key k with
      | gt => simp
      | eq => simp
      | lt =>
        cases hc2 : kcmp ndR.key k with
        | lt => simp
        | eq => simp
        | gt =>
          rw [hroot, hgo]
          exact hspec_ne
    · intro i nd hf hlt start
      rw [hfn] at hf
      cases hf
      rw [hunfold, kcmp_gt_iff.mpr hlt]
    · intro i nd hf hlt start
      rw [hln] at hf
      cases hf
      have hminmax : kcmp ndL.key k = .lt := kcmp_lt_iff.mpr (lt_of_le_of_lt hLR hlt)
      rw [hunfold, hminmax, kcmp_lt_iff.mpr hlt]
    · intro p
      rw [show search s.meta.root k s = search_by (fun n => kcmp n.key k) s.meta.root s from rfl,
        hunfold]
      constructor
      · intro h
        revert h
        cases hc1 : kcmp ndL.key k with
        | gt => intro h; cases h
        | eq =>
          intro h
          cases h
          exact ⟨ndL, hmemL, kcmp_eq_iff.mp hc1⟩
        | lt =>
          cases hc2 : kcmp ndR.key k with
          | lt => intro h; cases h
          | eq =>
            intro h
            cases h
            exact ⟨ndR, hmemR, kcmp_eq_iff.mp hc2⟩
          | gt =>
            rw [hroot, hgo]
            intro h
            exact specGo_here_mem h
      · rintro ⟨nd, hmem, hkey⟩
        have hkmem : k ∈ (ATree.node lt rootI rootNd rt).keys := by
          rw [ATree.keys_eq_assoc_map]
          exact hkey ▸ List.mem_map_of_mem _ hmem
        have hge := firstNode_key_le hB hfn k hkmem
        have hle := lastNode_key_ge hB hln k hkmem
        cases hc1 : kcmp ndL.key k with
        | gt => exact absurd (kcmp_gt_iff.mp hc1) (not_lt.mpr hge)
        | eq =>
          have : (p, nd) = (iL, ndL) :=
            assoc_key_unique hB hmem hmemL (by rw [hkey, kcmp_eq_iff.mp hc1])
          cases this
          rfl
        | lt =>
          cases hc2 : kcmp ndR.key k with
          | lt => exact absurd (kcmp_lt_iff.mp hc2) (not_lt.mpr hle)
          | eq =>
            have : (p, nd) = (iR, ndR) :=
              assoc_key_unique hB hmem hmemR (by rw [hkey, kcmp_eq_iff.mp hc2])
            cases this
            rfl
          | gt =>
            rw [hroot, hgo]
            obtain ⟨i', nd', hres, hmem', hkey'⟩ := specGo_mem_here hB hkmem none false
            have : (p, nd) = (i', nd') :=
              assoc_key_unique hB hmem hmem' (by rw [hkey, hkey'])
            cases this
            exact hres
    · intro jL mdL jR mdR hf hl2 hlt1 hlt2
      rw [hfn] at hf
      rw [hln] at hl2
      cases hf
      cases hl2
      rw [show search s.meta.root k s = search_by (fun n => kcmp n.key k) s.meta.root s from rfl,
        hunfold, kcmp_lt_iff.mpr hlt1, kcmp_gt_iff.mpr hlt2, hroot, hgo]

theorem search_cases (s : TreeData K V) (t : ATree K V) (k : K) (hWF : TreeWF s t) :
    (t = .nil ∧ search s.meta.root k s = .empty) ∨
    (∃ iL ndL iR ndR, t.firstNode = some (iL, ndL) ∧ t.lastNode = some (iR, ndR) ∧
      (iL, ndL) ∈ t.assoc ∧ (iR, ndR) ∈ t.assoc ∧
      search s.meta.root k s =
        (match kcmp ndL.key k with
         | .gt => .leftOf iL
         | .eq => .here iL
         | .lt =>
           match kcmp ndR.key k with
           | .lt => .rightOf iR
           | .eq => .here iR
           | .gt => specGo (fun n => kcmp n.key k) t none false)) := by
  obtain ⟨hT, hB, hN, hL, hR⟩ := hWF
  cases t with
  | nil =>
    refine Or.inl ⟨rfl, ?_⟩
    have hLn : s.meta.range.l = none := by rw [hL, ATree.firstNode]; rfl
    unfold search search_by
    rw [hLn]
  | node lt rootI rootNd rt =>
    obtain ⟨⟨iL, ndL⟩, hfn⟩ :=
      (firstNode_of_node : ∃ p, (ATree.node lt rootI rootNd rt).firstNode = some p)
    obtain ⟨⟨iR, ndR⟩, hln⟩ :=
      (lastNode_of_node : ∃ p, (ATree.node lt rootI rootNd rt).lastNode = some p)
    have hroot : s.meta.root = some rootI := hT.node_root
    have hLl : s.meta.range.l = some iL := by rw [hL, hfn]; rfl
    have hRr : s.meta.range.r = some iR := by rw [hR, hln]; rfl
    have hmemL := firstNode_mem hfn
    have hmemR := lastNode_mem hln
    have hndL : s.node iL = ndL := node_of_assoc hT hmemL
    have hndR : s.node iR = ndR := node_of_assoc hT hmemR
    have hT' : IsTree s.arena (some rootI) (ATree.node lt rootI rootNd rt) := hroot ▸ hT
    have hfuel : (ATree.node lt rootI rootNd rt).size < s.arena.items.length + 1 :=
      Nat.lt_succ_of_le (hT.size_le hN)
    have hgo := searchGo_eq_specGo (fun n => kcmp n.key k) s hT'
      (s.arena.items.length + 1) hfuel none false
    refine Or.inr ⟨iL, ndL, iR, ndR, hfn, hln, hmemL, hmemR, ?_⟩
    show search_by (fun n => kcmp n.key k) s.meta.root s = _
    unfold search_by
    rw [hLl, hRr]
    simp only [hndL, hndR]
    cases kcmp ndL.key k with
    | gt => rfl
    | eq => rfl
    | lt =>
      cases kcmp ndR.key k with
      | lt => rfl
      | eq => rfl
      | gt =>
        rw [hroot, hgo]

theorem search_here_of_mem {s : TreeData K V} {t : ATree K V} {k : K}
    (hWF : TreeWF s t) {p : Nat} {nd : Node K V}
    (hmem : (p, nd) ∈ t.assoc) (hkey : nd.key = k) :
    search s.meta.root k s = .here p := by
  have hkmem : k ∈ t.keys := by
    rw [ATree.keys_eq_assoc_map]
    exact hkey ▸ List.mem_map_of_mem _ hmem
  rcases search_cases s t k hWF with ⟨rfl, -⟩ | ⟨iL, ndL, iR, ndR, hfn, hln, hmemL, hmemR, hres⟩
  · cases hkmem
  · have hge := firstNode_key_le hWF.bst hfn k hkmem
    have hle := lastNode_key_ge hWF.bst hln k hkmem
    rw [hres]
    cases hc1 : kcmp ndL.key k with
    | gt => exact absurd (kcmp_gt_iff.mp hc1) (not_lt.mpr hge)
    | eq =>
      have : (p, nd) = (iL, ndL) :=
        assoc_key_unique hWF.bst hmem hmemL (by rw [hkey, kcmp_eq_iff.mp hc1])
      cases this
      rfl
    | lt =>
      cases hc2 : kcmp ndR.key k with
      | lt => exact absurd (kcmp_lt_iff.mp hc2) (not_lt.mpr hle)
      | eq =>
        have : (p, nd) = (iR, ndR) :=
          assoc_key_unique hWF.bst hmem hmemR (by rw [hkey, kcmp_eq_iff.mp hc2])
        cases this
        rfl
      | gt =>
        obtain ⟨i', nd', hres', hmem', hkey'⟩ := specGo_mem_here hWF.bst hkmem none false
        have : (p, nd) = (i', nd') :=
          assoc_key_unique hWF.bst hmem hmem' (by rw [hkey, hkey'])
        cases this
        exact hres'

theorem search_here_mem {s : TreeData K V} {t : ATree K V} {k : K} (hWF : TreeWF s t)
    {p : Nat} (h : search s.meta.root k s = .here p) :
    ∃ nd, (p, nd) ∈ t.assoc ∧ nd.key = k := by
  rcases search_cases s t k hWF with ⟨-, hres⟩ | ⟨iL, ndL, iR, ndR, -, -, hmemL, hmemR, hres⟩
  · rw [hres] at h
    cases h
  · rw [hres] at h
    revert h
    cases hc1 : kcmp ndL.key k with
    | gt => intro h; cases h
    | eq =>
      intro h
      cases h
      exact ⟨ndL, hmemL, kcmp_eq_iff.mp hc1⟩
    | lt =>
      cases hc2 : kcmp ndR.key k with
      | lt => intro h; cases h
      | eq =>
        intro h
        cases h
        exact ⟨ndR, hmemR, kcmp_eq_iff.mp hc2⟩
      | gt => exact fun h => specGo_here_mem h

theorem search_empty_of_nil {s : TreeData K V} (hWF : TreeWF s (ATree.nil : ATree K V))
    (k : K) : search s.meta.root k s = .empty := by
  rcases search_cases s .nil k hWF with ⟨-, hres⟩ | ⟨iL, ndL, iR, ndR, hfn, -⟩
  · exact hres
  · rw [ATree.firstNode] at hfn
    cases hfn

theorem search_miss {s : TreeData K V} {t : ATree K V} {k : K} (hWF : TreeWF s t)
    (hk : k ∉ t.keys) (hne : t ≠ .nil) :
    (∃ parent, search s.meta.root k s = .leftOf parent) ∨
    (∃ parent, search s.meta.root k s = .rightOf parent) := by
  cases hres : search s.meta.root k s with
  | empty =>
    exfalso
    rcases search_cases s t k hWF with ⟨hnil, -⟩ | ⟨iL, ndL, iR, ndR, -, -, -, -, hres'⟩
    · exact hne hnil
    · rw [hres'] at hres
      revert hres
      cases hc1 : kcmp ndL.key k with
      | gt => intro h; cases h
      | eq => intro h; cases h
      | lt =>
        cases hc2 : kcmp ndR.key k with
        | lt => intro h; cases h
        | eq => intro h; cases h
        | gt =>
          intro h
          cases t with
          | nil => exact hne rfl
          | node l i nd r =>
            revert h
            rw [specGo]
            cases kcmp nd.key k with
            | gt => exact fun h => specGo_some_parent_ne_empty _ _ _ _ h
            | eq => intro h; cases h
            | lt => exact fun h => specGo_some_parent_ne_empty _ _ _ _ h
  | here p =>
    exfalso
    obtain ⟨nd, hmem, hkey⟩ := search_here_mem hWF hres
    refine hk ?_
    rw [ATree.keys_eq_assoc_map]
    exact hkey ▸ List.mem_map_of_mem _ hmem
  | leftOf p => exact Or.inl ⟨p, rfl⟩
  | rightOf p => exact Or.inr ⟨p, rfl⟩

end SearchProofs

/-- Decision procedure for the BST predicate on views. -/
def decBST {K V : Type} [LinearOrder K] : (t : ATree K V) → Decidable t.BST
  | .nil => .isTrue trivial
  | .node l i nd r =>
    haveI hl : Decidable (ATree.BST l) := decBST l
    haveI hr : Decidable (ATree.BST r) := decBST r
    show Decidable ((∀ k ∈ ATree.keys l, k < nd.key) ∧ (∀ k ∈ ATree.keys r, nd.key < k) ∧
      ATree.BST l ∧ ATree.BST r) from inferInstance

instance {K V : Type} [LinearOrder K] (t : ATree K V) : Decidable t.BST := decBST t

/-- A concrete two-node well-formed tree for the search witnesses: keys
10 (black root, slot 0) and 20 (red right child, slot 1). -/
def wfT2 : TreeData Nat Nat := treeOfList [10, 20]

/-- The view of `wfT2`. -/
def wfT2View : ATree Nat Nat :=
  .node .nil 0 ⟨10, 10, .black, none, ⟨none, some 1⟩, ⟨none, some 1⟩⟩
    (.node .nil 1 ⟨20, 20, .red, some 0, ⟨none, none⟩, ⟨some 0, none⟩⟩ .nil)

theorem wfT2_wf : TreeWF wfT2 wfT2View :=
  ⟨.node rfl .nil (.node rfl .nil .nil), by decide, by decide, rfl, rfl⟩

/-- Witness for C9 at the two-node tree and the absent key 15. -/
theorem c9_search_characterisation_witness :
    (search wfT2.meta.root 15 wfT2 = .empty ↔ wfT2.meta.root = none) ∧
    (∀ i nd, wfT2View.firstNode = some (i, nd) → 15 < nd.key →
       ∀ start, search_by (fun n => kcmp n.key 15) start wfT2 = .leftOf i) ∧
    (∀ i nd, wfT2View.lastNode = some (i, nd) → nd.key < 15 →
       ∀ start, search_by (fun n => kcmp n.key 15) start wfT2 = .rightOf i) ∧
    (∀ p, search wfT2.meta.root 15 wfT2 = .here p ↔
       ∃ nd, (p, nd) ∈ wfT2View.assoc ∧ nd.key = 15) ∧
    (∀ iL ndL iR ndR, wfT2View.firstNode = some (iL, ndL) →
       wfT2View.lastNode = some (iR, ndR) → ndL.key < 15 → 15 < ndR.key →
       search wfT2.meta.root 15 wfT2 = specGo (fun n => kcmp n.key 15) wfT2View none false) :=
  c9_search_characterisation wfT2 wfT2View 15 wfT2_wf

section C4Proof

variable {K V C L : Type} [LinearOrder K] [Inhabited K] [Inhabited V]

/-- C4: behaviour of `TreeAllocGuard::insert(k, v)` on a well-formed
tree.  (1) If `k` is stored at a node, the insert replaces that node's
value by `V::new(v)` and returns `false`, touching nothing else.  (2)
If the tree is empty it allocates a black node, makes it the root with
both range ends pointing at it and `black_height = 1`, and returns
`true`.  (3) Otherwise it allocates a red node and hands it to
`insert_at` at the parent and side the search reported, returning
`true`. -/
theorem c4_insert_behaviour (VI : ValueImpl V C L) (s : TreeData K V) (t : ATree K V)
    (k : K) (v : L) (hWF : TreeWF s t) :
    (∀ p nd, (p, nd) ∈ t.assoc → nd.key = k →
      insertG VI k v s =
        ({ s with arena := s.arena.modifyN p fun n => { n with value := VI.newV v } }, false)) ∧
    (t = .nil →
      insertG VI k v s =
        ({ arena := (s.arena.insert (Node.new k (VI.newV v) .black)).1,
           meta := { root := some (s.arena.insert (Node.new k (VI.newV v) .black)).2,
                     range := ⟨some (s.arena.insert (Node.new k (VI.newV v) .black)).2,
                               some (s.arena.insert (Node.new k (VI.newV v) .black)).2⟩,
                     blackHeight := 1 } }, true)) ∧
    (k ∉ t.keys → t ≠ .nil →
      ∃ parent side, (side = 0 ∨ side = 1) ∧
        search s.meta.root k s = (if side = 0 then .leftOf parent else .rightOf parent) ∧
        insertG VI k v s =
          (insert_at VI side (s.arena.insert (Node.new k (VI.newV v) .red)).2 parent
             { s with arena := (s.arena.insert (Node.new k (VI.newV v) .red)).1 }, true)) := by
  refine ⟨?_, ?_, ?_⟩
  · intro p nd hmem hkey
    have hs := search_here_of_mem hWF hmem hkey
    unfold insertG
    rw [hs]
  · intro hnil
    subst hnil
    have hs := search_empty_of_nil hWF k
    unfold insertG
    rw [hs]
  · intro hk hne
    rcases search_miss hWF hk hne with ⟨parent, hs⟩ | ⟨parent, hs⟩
    · refine ⟨parent, 0, Or.inl rfl, by rw [if_pos rfl]; exact hs, ?_⟩
      unfold insertG
      rw [hs]
    · refine ⟨parent, 1, Or.inr rfl, by norm_num; exact hs, ?_⟩
      unfold insertG
      rw [hs]

end C4Proof

/-- Witness inputs for C4: the two-node tree and the present key 10. -/
theorem c4_insert_behaviour_witness :
    (∀ p nd, (p, nd) ∈ wfT2View.assoc → nd.key = 10 →
      insertG (noCumulant Nat) 10 77 wfT2 =
        ({ wfT2 with arena := wfT2.arena.modifyN p fun n => { n with value := 77 } }, false)) ∧
    (wfT2View = .nil →
      insertG (noCumulant Nat) 10 77 wfT2 =
        ({ arena := (wfT2.arena.insert (Node.new 10 77 .black)).1,
           meta := { root := some (wfT2.arena.insert (Node.new 10 77 .black)).2,
                     range := ⟨some (wfT2.arena.insert (Node.new 10 77 .black)).2,
                               some (wfT2.arena.insert (Node.new 10 77 .black)).2⟩,
                     blackHeight := 1 } }, true)) ∧
    (10 ∉ wfT2View.keys → wfT2View ≠ .nil →
      ∃ parent side, (side = 0 ∨ side = 1) ∧
        search wfT2.meta.root 10 wfT2 = (if side = 0 then .leftOf parent else .rightOf parent) ∧
        insertG (noCumulant Nat) 10 77 wfT2 =
          (insert_at (noCumulant Nat) side (wfT2.arena.insert (Node.new 10 77 .red)).2 parent
             { wfT2 with arena := (wfT2.arena.insert (Node.new 10 77 .red)).1 }, true)) :=
  c4_insert_behaviour (noCumulant Nat) wfT2 wfT2View 10 77 wfT2_wf

section KVPreservation

variable {K V C L : Type} [LinearOrder K] [Inhabited K] [Inhabited V]

/-- The observable (key, payload) of a slot: the part of a node that
cumulant maintenance must not change. -/
def kvOf (VI : ValueImpl V C L) (a : Arena (Node K V)) (i : Nat) : Option (K × L) :=
  (a.get i).map fun nd => (nd.key, VI.intoV nd.value)

theorem get_modifyN {T : Type} (a : Arena T) (i j : Nat) (f : T → T) :
    (a.modifyN i f).get j = if j = i then (a.get i).map f else a.get j := by
  unfold Arena.modifyN
  cases hg : a.items.get? i with
  | none =>
    have hgi : a.get i = none := by unfold Arena.get; rw [hg]
    simp only
    by_cases hji : j = i
    · subst hji
      rw [if_pos (Eq.refl _), hgi]
      rfl
    · rw [if_neg hji]
  | some e =>
    cases e with
    | free n =>
      have hgi : a.get i = none := by unfold Arena.get; rw [hg]
      simp only
      by_cases hji : j = i
      · subst hji
        rw [if_pos (Eq.refl _), hgi]
        rfl
      · rw [if_neg hji]
    | occupied v =>
      have hlen : i < a.items.length := (List.get?_eq_some.mp hg).1
      have hgi : a.get i = some v := by unfold Arena.get; rw [hg]
      simp only
      by_cases hji : j = i
      · subst hji
        rw [if_pos (Eq.refl _), hgi]
        unfold Arena.get
        simp only
        rw [List.get?_set_eq_of_lt _ hlen]
        rfl
      · rw [if_neg hji]
        unfold Arena.get
        simp only
        rw [List.get?_set_ne _ _ fun h => hji h.symm]

/-- Arena `b` holds the same keys and payloads as `a` in every slot. -/
def SameKV (VI : ValueImpl V C L) (a b : Arena (Node K V)) : Prop :=
  ∀ j, kvOf VI b j = kvOf VI a j

theorem SameKV.rfl {VI : ValueImpl V C L} {a : Arena (Node K V)} : SameKV VI a a :=
  fun _ => Eq.refl _

theorem SameKV.trans {VI : ValueImpl V C L} {a b c : Arena (Node K V)}
    (h1 : SameKV VI a b) (h2 : SameKV VI b c) : SameKV VI a c :=
  fun j => (h2 j).trans (h1 j)

theorem sameKV_modifyN {VI : ValueImpl V C L} {a : Arena (Node K V)} {i : Nat}
    {f : Node K V → Node K V}
    (hf : ∀ nd, (f nd).key = nd.key ∧ VI.intoV (f nd).value = VI.intoV nd.value) :
    SameKV VI a (a.modifyN i f) := by
  intro j
  unfold kvOf
  rw [get_modifyN]
  by_cases hji : j = i
  · subst hji
    rw [if_pos (Eq.refl _)]
    cases hg : a.get j with
    | none => rfl
    | some nd => simp [(hf nd).1, (hf nd).2]
  · rw [if_neg hji]

/-- Field updates that do not touch key or value. -/
theorem sameKV_modifyN_links {VI : ValueImpl V C L} {a : Arena (Node K V)} {i : Nat}
    {f : Node K V → Node K V} (hk : ∀ nd, (f nd).key = nd.key)
    (hv : ∀ nd, (f nd).value = nd.value) : SameKV VI a (a.modifyN i f) :=
  sameKV_modifyN fun nd => ⟨hk nd, by rw [hv nd]⟩

theorem sameKV_update_cumulant (VI : ValueImpl V C L)
    (hinto : ∀ v c1 c2, VI.intoV (VI.updateCumulant v c1 c2) = VI.intoV v)
    (i : Nat) (s : TreeData K V) :
    SameKV VI s.arena (update_cumulant VI i s).arena := by
  unfold update_cumulant TreeData.modifyN
  exact sameKV_modifyN fun nd => ⟨Eq.refl _, hinto _ _ _⟩

theorem sameKV_propagateGo (VI : ValueImpl V C L)
    (hinto : ∀ v c1 c2, VI.intoV (VI.updateCumulant v c1 c2) = VI.intoV v) :
    ∀ (fuel : Nat) (ptr : Option Nat) (s : TreeData K V),
      SameKV VI s.arena (propagateGo VI fuel ptr s).arena
  | 0, _, s => SameKV.rfl
  | _ + 1, none, s => SameKV.rfl
  | fuel + 1, some i, s =>
    SameKV.trans (sameKV_update_cumulant VI hinto i s)
      (sameKV_propagateGo VI hinto fuel ((s.node i).parent) (update_cumulant VI i s))

theorem sameKV_propagate (VI : ValueImpl V C L)
    (hinto : ∀ v c1 c2, VI.intoV (VI.updateCumulant v c1 c2) = VI.intoV v)
    (i : Nat) (s : TreeData K V) :
    SameKV VI s.arena (propagate_cumulant VI i s).arena :=
  sameKV_propagateGo VI hinto _ _ _

theorem sameKV_replace (VI : ValueImpl V C L) (old : Nat) (new : Option Nat)
    (s : TreeData K V) :
    SameKV VI s.arena (replace old new s).arena := by
  unfold replace
  cases hnew : new with
  | none =>
    simp only
    cases hp : (s.node old).parent with
    | none => exact SameKV.rfl
    | some p =>
      simp only
      by_cases hc : (s.node p).children.get 0 = some old
      · rw [if_pos hc]
        exact sameKV_modifyN_links (fun _ => Eq.refl _) (fun _ => Eq.refl _)
      · rw [if_neg hc]
        exact sameKV_modifyN_links (fun _ => Eq.refl _) (fun _ => Eq.refl _)
  | some n =>
    simp only
    cases hp : (s.node old).parent with
    | none =>
      simp only
      exact sameKV_modifyN_links (fun _ => Eq.refl _) (fun _ => Eq.refl _)
    | some p =>
      simp only
      split
      · refine SameKV.trans (sameKV_modifyN_links ?_ ?_) (sameKV_modifyN_links ?_ ?_)
        all_goals exact fun _ => rfl
      · refine SameKV.trans (sameKV_modifyN_links ?_ ?_) (sameKV_modifyN_links ?_ ?_)
        all_goals exact fun _ => rfl

theorem sameKV_rotate (VI : ValueImpl V C L) (I ptr : Nat) (s : TreeData K V) :
    SameKV VI s.arena (rotate I ptr s).arena := by
  unfold rotate
  cases hp : (s.node ptr).children.get (1 - I) with
  | none => exact sameKV_replace VI _ _ _
  | some pv =>
    simp only
    cases hc : ((replace ptr (some pv) s).node pv).children.get I with
    | some c =>
      simp only
      refine SameKV.trans (SameKV.trans (SameKV.trans (sameKV_replace VI ptr (some pv) s)
        (sameKV_modifyN_links ?_ ?_)) (sameKV_modifyN_links ?_ ?_))
        (sameKV_modifyN_links ?_ ?_)
      all_goals exact fun _ => rfl
    | none =>
      simp only
      refine SameKV.trans (SameKV.trans (sameKV_replace VI ptr (some pv) s)
        (sameKV_modifyN_links ?_ ?_)) (sameKV_modifyN_links ?_ ?_)
      all_goals exact fun _ => rfl

theorem SameKV.peelColor {VI : ValueImpl V C L} {a : Arena (Node K V)} {s : TreeData K V}
    (i : Nat) (c : Color) (h : SameKV VI a s.arena) :
    SameKV VI a (s.modifyN i fun nd => { nd with color := c }).arena :=
  SameKV.trans h (by
    refine sameKV_modifyN_links ?_ ?_ <;> exact fun _ => Eq.refl _)

theorem SameKV.peelChildrenSet {VI : ValueImpl V C L} {a : Arena (Node K V)}
    {s : TreeData K V} (i j : Nat) (x : Option Nat) (h : SameKV VI a s.arena) :
    SameKV VI a (s.modifyN i fun nd => { nd with children := nd.children.set j x }).arena :=
  SameKV.trans h (by
    refine sameKV_modifyN_links ?_ ?_ <;> exact fun _ => Eq.refl _)

theorem SameKV.peelOrderSet {VI : ValueImpl V C L} {a : Arena (Node K V)}
    {s : TreeData K V} (i j : Nat) (x : Option Nat) (h : SameKV VI a s.arena) :
    SameKV VI a (s.modifyN i fun nd => { nd with order := nd.order.set j x }).arena :=
  SameKV.trans h (by
    refine sameKV_modifyN_links ?_ ?_ <;> exact fun _ => Eq.refl _)

theorem SameKV.peelReplace {VI : ValueImpl V C L} {a : Arena (Node K V)}
    {s : TreeData K V} (old : Nat) (new : Option Nat) (h : SameKV VI a s.arena) :
    SameKV VI a (replace old new s).arena :=
  SameKV.trans h (sameKV_replace VI old new s)

theorem SameKV.peelRotate {VI : ValueImpl V C L} {a : Arena (Node K V)}
    {s : TreeData K V} (I ptr : Nat) (h : SameKV VI a s.arena) :
    SameKV VI a (rotate I ptr s).arena :=
  SameKV.trans h (sameKV_rotate VI I ptr s)

theorem SameKV.peelUpdateCum {VI : ValueImpl V C L} {a : Arena (Node K V)}
    {s : TreeData K V}
    (hinto : ∀ v c1 c2, VI.intoV (VI.updateCumulant v c1 c2) = VI.intoV v)
    (i : Nat) (h : SameKV VI a s.arena) :
    SameKV VI a (update_cumulant VI i s).arena :=
  SameKV.trans h (sameKV_update_cumulant VI hinto i s)

theorem SameKV.peelPropagate {VI : ValueImpl V C L} {a : Arena (Node K V)}
    {s : TreeData K V}
    (hinto : ∀ v c1 c2, VI.intoV (VI.updateCumulant v c1 c2) = VI.intoV v)
    (i : Nat) (h : SameKV VI a s.arena) :
    SameKV VI a (propagate_cumulant VI i s).arena :=
  SameKV.trans h (sameKV_propagate VI hinto i s)

set_option maxHeartbeats 3000000 in
theorem sameKV_fixRemoveHelper (VI : ValueImpl V C L)
    (hinto : ∀ v c1 c2, VI.intoV (VI.updateCumulant v c1 c2) = VI.intoV v)
    (I parent : Nat) (s : TreeData K V) :
    SameKV VI s.arena (fixRemoveHelper VI I parent s).2.arena := by
  unfold fixRemoveHelper
  simp only
  repeat' split
  all_goals
    repeat first
      | exact SameKV.rfl
      | refine SameKV.peelRemoveFinish hinto _ _ _ _ ?_
      | refine SameKV.peelColor _ _ ?_
      | refine SameKV.peelChildrenSet _ _ _ ?_
      | refine SameKV.peelOrderSet _ _ _ ?_
      | refine SameKV.peelReplace _ _ ?_
      | refine SameKV.peelRotate _ _ ?_
      | refine SameKV.peelUpdateCum hinto _ ?_
      | refine SameKV.peelPropagate hinto _ ?_

theorem sameKV_fixRemoveGo (VI : ValueImpl V C L)
    (hinto : ∀ v c1 c2, VI.intoV (VI.updateCumulant v c1 c2) = VI.intoV v) :
    ∀ (fuel parent : Nat) (isRight : Bool) (s : TreeData K V),
      SameKV VI s.arena (fixRemoveGo VI fuel parent isRight s).arena := by
  intro fuel
  induction fuel with
  | zero => intro parent isRight s; exact SameKV.rfl
  | succ fuel ih =>
    intro parent isRight s
    unfold fixRemoveGo
    simp only
    by_cases hir : isRight = true
    · rw [if_pos hir]
      have h := sameKV_fixRemoveHelper VI hinto 1 parent s
      repeat' split
      all_goals first | exact h | exact SameKV.trans h (ih _ _ _)
    · rw [if_neg hir]
      have h := sameKV_fixRemoveHelper VI hinto 0 parent s
      repeat' split
      all_goals first | exact h | exact SameKV.trans h (ih _ _ _)

theorem sameKV_fix_remove (VI : ValueImpl V C L)
    (hinto : ∀ v c1 c2, VI.intoV (VI.updateCumulant v c1 c2) = VI.intoV v)
    (ptr : Nat) (s : TreeData K V) :
    SameKV VI s.arena (fix_remove VI ptr s).arena := by
  unfold fix_remove
  simp only
  exact SameKV.trans (SameKV.peelChildrenSet _ _ _ SameKV.rfl)
    (sameKV_fixRemoveGo VI hinto _ _ _ _)

theorem SameKV.peelFixRemove {VI : ValueImpl V C L} {a : Arena (Node K V)}
    {s : TreeData K V}
    (hinto : ∀ v c1 c2, VI.intoV (VI.updateCumulant v c1 c2) = VI.intoV v)
    (ptr : Nat) (h : SameKV VI a s.arena) :
    SameKV VI a (fix_remove VI ptr s).arena :=
  SameKV.trans h (sameKV_fix_remove VI hinto ptr s)

theorem removeFinish_fst (VI : ValueImpl V C L) (ptr : Nat)
    (parent prev next : Option Nat) (s : TreeData K V) :
    (removeFinish VI ptr parent prev next s).1 = ptr :=
  Eq.refl _

theorem sameKV_removeFinish (VI : ValueImpl V C L)
    (hinto : ∀ v c1 c2, VI.intoV (VI.updateCumulant v c1 c2) = VI.intoV v)
    (ptr : Nat) (parent prev next : Option Nat) (s : TreeData K V) :
    SameKV VI s.arena (removeFinish VI ptr parent prev next s).2.arena := by
  unfold removeFinish
  simp only
  repeat' split
  all_goals
    repeat first
      | exact SameKV.rfl
      | refine SameKV.peelOrderSet _ _ _ ?_
      | refine SameKV.peelPropagate hinto _ ?_

theorem SameKV.peelRemoveFinish {VI : ValueImpl V C L} {a : Arena (Node K V)}
    {s : TreeData K V}
    (hinto : ∀ v c1 c2, VI.intoV (VI.updateCumulant v c1 c2) = VI.intoV v)
    (ptr : Nat) (parent prev next : Option Nat) (h : SameKV VI a s.arena) :
    SameKV VI a (removeFinish VI ptr parent prev next s).2.arena :=
  SameKV.trans h (sameKV_removeFinish VI hinto ptr parent prev next s)

theorem kv_transfer {VI : ValueImpl V C L} {a b : Arena (Node K V)} {j : Nat}
    {k : K} {w : L} (h : SameKV VI a b) (hkv : kvOf VI a j = some (k, w)) :
    kvOf VI b j = some (k, w) := (h j).trans hkv

set_option maxHeartbeats 3000000 in
theorem remove_at_kv (VI : ValueImpl V C L)
    (hinto : ∀ v c1 c2, VI.intoV (VI.updateCumulant v c1 c2) = VI.intoV v)
    (i : Nat) (k : K) (w : L) (s : TreeData K V)
    (hkv : kvOf VI s.arena i = some (k, w))
    (hsucc : ∀ nx, (s.node i).order.get 1 = some nx → nx ≠ i →
      (s.arena.get nx).isSome)
    (htwo : ((s.node i).children.get 0).isSome → ((s.node i).children.get 1).isSome →
      ((s.node i).order.get 1).isSome) :
    kvOf VI (remove_at VI i s).2.arena (remove_at VI i s).1 = some (k, w) := by
  have hkv' := hkv
  unfold kvOf at hkv'
  obtain ⟨nd0, hget0, hpair⟩ := Option.map_eq_some'.mp hkv'
  have hk0 : nd0.key = k := congrArg Prod.fst hpair
  have hw0 : VI.intoV nd0.value = w := congrArg Prod.snd hpair
  have hnode : s.node i = nd0 := by unfold TreeData.node; rw [hget0]; rfl
  unfold remove_at
  simp only
  cases hc0 : (s.node i).children.get 0 with
  | none =>
    simp only
    repeat' split
    all_goals first
      | exact hkv
      | (rw [removeFinish_fst]
         refine kv_transfer ?_ hkv
         repeat first
           | exact SameKV.rfl
           | refine SameKV.peelRemoveFinish hinto _ _ _ _ ?_
           | refine SameKV.peelColor _ _ ?_
           | refine SameKV.peelChildrenSet _ _ _ ?_
           | refine SameKV.peelReplace _ _ ?_
           | refine SameKV.peelFixRemove hinto _ ?_)
  | some l =>
    cases hc1 : (s.node i).children.get 1 with
    | none =>
      simp only
      repeat' split
      all_goals first
        | exact hkv
        | (rw [removeFinish_fst]
           refine kv_transfer ?_ hkv
           repeat first
             | exact SameKV.rfl
             | refine SameKV.peelRemoveFinish hinto _ _ _ _ ?_
             | refine SameKV.peelColor _ _ ?_
             | refine SameKV.peelChildrenSet _ _ _ ?_
             | refine SameKV.peelReplace _ _ ?_
             | refine SameKV.peelFixRemove hinto _ ?_)
    | some r =>
      simp only
      obtain ⟨nx, hnx⟩ := Option.isSome_iff_exists.mp
        (htwo (by rw [hc0]; exact Option.isSome_some) (by rw [hc1]; exact Option.isSome_some))
      rw [hnx]
      simp only [Option.getD_some]
      by_cases hin : i = nx
      · rw [if_pos hin]
        simp only
        repeat' split
        all_goals first
          | exact hkv
          | (rw [removeFinish_fst]
             refine kv_transfer ?_ hkv
             repeat first
               | exact SameKV.rfl
               | refine SameKV.peelRemoveFinish hinto _ _ _ _ ?_
               | refine SameKV.peelColor _ _ ?_
               | refine SameKV.peelChildrenSet _ _ _ ?_
               | refine SameKV.peelReplace _ _ ?_
               | refine SameKV.peelFixRemove hinto _ ?_)
      · rw [if_neg hin]
        simp only
        have hne : ¬(nx = i) := fun h => hin h.symm
        obtain ⟨nd2, hnd2⟩ := Option.isSome_iff_exists.mp
          (hsucc nx hnx (fun h => hin h.symm))
        have hgen : ∀ (f1 : Node K V → Node K V) (kk : K) (vv : V), kk = k →
            VI.intoV vv = w →
            kvOf VI ((s.modifyN i f1).modifyN nx fun nd =>
              { nd with key := kk, value := vv }).arena nx = some (k, w) := by
          intro f1 kk vv hkk hvv
          show kvOf VI ((s.arena.modifyN i f1).modifyN nx fun nd =>
            { nd with key := kk, value := vv }) nx = some (k, w)
          unfold kvOf
          rw [get_modifyN, if_pos (Eq.refl _), get_modifyN, if_neg hne, hnd2]
          show some (kk, VI.intoV vv) = some (k, w)
          rw [hkk, hvv]
        have hkv1 := hgen (fun nd =>
            { nd with key := (s.node nx).key, value := (s.node nx).value })
          (s.node i).key (s.node i).value (by rw [hnode, hk0]) (by rw [hnode, hw0])
        repeat' split
        all_goals first
          | exact hkv1
          | (rw [removeFinish_fst]
             refine kv_transfer ?_ hkv1
             repeat first
               | exact SameKV.rfl
               | refine SameKV.peelRemoveFinish hinto _ _ _ _ ?_
               | refine SameKV.peelColor _ _ ?_
               | refine SameKV.peelChildrenSet _ _ _ ?_
               | refine SameKV.peelReplace _ _ ?_
               | refine SameKV.peelFixRemove hinto _ ?_)

/-- Order-thread sanity assumed by the removal claim: every stored
successor link points at an occupied slot, and a node with two children
has a successor link (what `Tree::remove_at` reads of invariant I4). -/
def succThreadOk (s : TreeData K V) : Prop :=
  ∀ j, j < s.arena.items.length →
    ((s.arena.get j).all fun nd =>
      match nd.order.get 1 with
      | some nx => (s.arena.get nx).isSome
      | none => !((nd.children.get 0).isSome && (nd.children.get 1).isSome)) = true

instance (s : TreeData K V) : Decidable (succThreadOk s) := by
  unfold succThreadOk
  exact Nat.decidableBallLT _ _

theorem arena_get_lt {T : Type} {a : Arena T} {j : Nat} {v : T}
    (h : a.get j = some v) : j < a.items.length := by
  unfold Arena.get at h
  cases hq : a.items.get? j with
  | none => rw [hq] at h; cases h
  | some e => exact (List.get?_eq_some.mp hq).1

theorem remove_payload (VI : ValueImpl V C L) {a : Arena (Node K V)} {j : Nat}
    {k : K} {w : L} (h : kvOf VI a j = some (k, w)) :
    ((a.remove j).2).map (fun nd => VI.intoV nd.value) = some w := by
  unfold kvOf at h
  obtain ⟨nd, hg, hp⟩ := Option.map_eq_some'.mp h
  have hw : VI.intoV nd.value = w := congrArg Prod.snd hp
  unfold Arena.get at hg
  unfold Arena.remove
  cases hq : a.items.get? j with
  | none => rw [hq] at hg; cases hg
  | some e =>
    cases e with
    | free n => rw [hq] at hg; cases hg
    | occupied v =>
      rw [hq] at hg
      have hv : v = nd := by cases hg; rfl
      have hlen : j < a.items.length := (List.get?_eq_some.mp hq).1
      rw [if_neg (not_le.mpr hlen)]
      simp only
      rw [hv]
      exact congrArg some hw

/-- C10: on a well-formed tree, `TreeAllocGuard::remove(k)` returns the
payload stored at `k` when `k` is present, and `None` with the state
handed back completely unchanged when `k` is absent. -/
theorem c10_remove_behaviour (VI : ValueImpl V C L)
    (hinto : ∀ v c1 c2, VI.intoV (VI.updateCumulant v c1 c2) = VI.intoV v)
    (s : TreeData K V) (t : ATree K V) (k : K) (hWF : TreeWF s t)
    (hthread : succThreadOk s) :
    (k ∉ t.keys → removeG VI k s = (s, none)) ∧
    (∀ p nd, (p, nd) ∈ t.assoc → nd.key = k →
      (removeG VI k s).2 = some (VI.intoV nd.value)) := by
  constructor
  · intro hk
    unfold removeG
    cases hres : search s.meta.root k s with
    | here p =>
      exfalso
      obtain ⟨nd, hmem, hkey⟩ := search_here_mem hWF hres
      refine hk ?_
      rw [ATree.keys_eq_assoc_map]
      exact hkey ▸ List.mem_map_of_mem _ hmem
    | empty => rfl
    | leftOf p => rfl
    | rightOf p => rfl
  · intro p nd hmem hkey
    have hres : search s.meta.root k s = .here p := search_here_of_mem hWF hmem hkey
    have hget : s.arena.get p = some nd := hWF.tree.assoc_get _ hmem
    have hnodep : s.node p = nd := node_of_assoc hWF.tree hmem
    have hkv : kvOf VI s.arena p = some (k, VI.intoV nd.value) := by
      unfold kvOf
      rw [hget]
      show some (nd.key, VI.intoV nd.value) = _
      rw [hkey]
    have hth := hthread p (arena_get_lt hget)
    rw [hget] at hth
    simp only [Option.all] at hth
    have hsucc : ∀ nx, (s.node p).order.get 1 = some nx → nx ≠ p →
        (s.arena.get nx).isSome := by
      intro nx hnx _
      rw [hnodep] at hnx
      rw [hnx] at hth
      exact hth
    have htwo : ((s.node p).children.get 0).isSome →
        ((s.node p).children.get 1).isSome → ((s.node p).order.get 1).isSome := by
      intro h0 h1
      rw [hnodep] at h0 h1 ⊢
      cases hno : nd.order.get 1 with
      | some nx => rfl
      | none =>
        rw [hno, h0, h1] at hth
        simp at hth
    have hfin := remove_at_kv VI hinto p k (VI.intoV nd.value) s hkv hsucc htwo
    unfold removeG
    rw [hres]
    simp only
    exact remove_payload VI hfin

/-- Witness for C10 at the two-node tree {10, 20}: key 15 is absent and
removal hands the state back unchanged; key 10 is present and removal
returns its payload 10. -/
theorem c10_remove_behaviour_witness :
    succThreadOk wfT2 ∧ (15 : Nat) ∉ wfT2View.keys ∧
    removeG (noCumulant Nat) 15 wfT2 = (wfT2, none) ∧
    (removeG (noCumulant Nat) 10 wfT2).2 = some 10 :=
  ⟨by decide, by decide,
   (c10_remove_behaviour (noCumulant Nat) (fun _ _ _ => Eq.refl _) wfT2 wfT2View 15 wfT2_wf
      (by decide)).1 (by decide),
   (c10_remove_behaviour (noCumulant Nat) (fun _ _ _ => Eq.refl _) wfT2 wfT2View 10 wfT2_wf
      (by decide)).2 0 ⟨10, 10, .black, none, ⟨none, some 1⟩, ⟨none, some 1⟩⟩
      (by decide) (by decide)⟩


end KVPreservation

end RBForest
